import Mathlib

/-!
# KexecOptions (pkg/boot/linux/opts.go): JSON serialization

A shallow embedding of `KexecOptions.MarshalJSON` and
`KexecOptions.UnmarshalJSON`, together with the part of Go's `encoding/json`
(as of Go 1.19) that the two methods call:

* the well-formedness check of the input and the reading of a JSON text
  (`parse`, after `scanner.go`: same white space, literals, numbers, string
  escapes, nesting limit);
* the reflection rule that only exported struct fields take part in encoding
  and decoding (`typeFields`);
* the struct encoder (`Marshal`) and the struct decoder (`Unmarshal`) for
  fields of type `bool` and `string` without `json` tags.

Byte slices are lists of naturals (each below 256 in a real slice); a Go
`error` is an `Option`, `none` for nil. A method with a pointer receiver
returns the receiver after the call.

The grammar of RFC 8259 is stated a second time, as inductive predicates on
byte strings (`ValidJSON`), and `parse` is proved to accept exactly its texts
(`parse_sound`, `parse_complete`).
-/

namespace Linux

/-- Go `[]byte`. -/
abbrev Bytes := List Nat

/-- The bytes of an ASCII string literal. -/
def ascii (s : String) : Bytes := s.data.map Char.toNat

/-! ## encoding/json: syntax -/

/-- The scanner's `maxNestingDepth`. -/
def maxNestingDepth : Nat := 10000

/-- The scanner's `isSpace`: space, tab, carriage return, line feed. -/
def isSpace (c : Nat) : Bool := c == 32 || c == 9 || c == 13 || c == 10

/-- Decimal digit `0`..`9`. -/
def isDigit (c : Nat) : Bool := decide (48 ≤ c) && decide (c ≤ 57)

/-- Hexadecimal digit, as accepted after a `\u` escape. -/
def isHex (c : Nat) : Bool :=
  isDigit c || (decide (97 ≤ c) && decide (c ≤ 102)) || (decide (65 ≤ c) && decide (c ≤ 70))

/-- The one-character escapes: `b f n r t \ / "`. -/
def isSimpleEscape (c : Nat) : Bool :=
  c == 98 || c == 102 || c == 110 || c == 114 || c == 116 || c == 92 || c == 47 || c == 34

/-- Drop leading white space. -/
def skipSpace : Bytes → Bytes
  | [] => []
  | c :: cs => if isSpace c then skipSpace cs else c :: cs

/-- Split off the longest prefix of decimal digits. -/
def takeDigits : Bytes → Bytes × Bytes
  | [] => ([], [])
  | c :: cs => if isDigit c then ((takeDigits cs).1.cons c, (takeDigits cs).2) else ([], c :: cs)

/-- A parsed JSON text. String and number literals keep the bytes as written
(for a string: what stands between the quotes, escapes not yet resolved). -/
inductive JSON where
  | null : JSON
  | bool (b : Bool) : JSON
  | number (raw : Bytes) : JSON
  | string (raw : Bytes) : JSON
  | array (elems : List JSON) : JSON
  | object (members : List (Bytes × JSON)) : JSON

/-- Scan a string literal after its opening quote (scanner states
`stateInString`, `stateInStringEsc`, `stateInStringEscU`..): returns the raw
content and the input after the closing quote. -/
def scanString : Bytes → Option (Bytes × Bytes)
  | [] => none
  | c :: cs =>
    if c = 34 then some ([], cs)
    else if c = 92 then
      match cs with
      | [] => none
      | e :: cs1 =>
        if isSimpleEscape e then
          (scanString cs1).map fun r => (92 :: e :: r.1, r.2)
        else if e = 117 then
          match cs1 with
          | h1 :: h2 :: h3 :: h4 :: cs2 =>
            if isHex h1 && isHex h2 && isHex h3 && isHex h4 then
              (scanString cs2).map fun r => (92 :: 117 :: h1 :: h2 :: h3 :: h4 :: r.1, r.2)
            else none
          | _ => none
        else none
    else if c < 32 then none
    else (scanString cs).map fun r => (c :: r.1, r.2)

/-- Scan the fraction of a number: nothing, or `.` and at least one digit
(`stateDot`, `stateDot0`). -/
def scanFraction (input : Bytes) : Option (Bytes × Bytes) :=
  match input with
  | 46 :: cs =>
    match takeDigits cs with
    | ([], _) => none
    | (ds, rest) => some (46 :: ds, rest)
  | _ => some ([], input)

/-- Scan the exponent of a number: nothing, or `e`/`E`, an optional sign and
at least one digit (`stateE`, `stateESign`, `stateE0`). -/
def scanExponent (input : Bytes) : Option (Bytes × Bytes) :=
  match input with
  | [] => some ([], [])
  | c :: cs =>
    if c = 101 ∨ c = 69 then
      match cs with
      | [] => none
      | s :: cs1 =>
        if s = 43 ∨ s = 45 then
          match takeDigits cs1 with
          | ([], _) => none
          | (ds, rest) => some (c :: s :: ds, rest)
        else
          match takeDigits (s :: cs1) with
          | ([], _) => none
          | (ds, rest) => some (c :: ds, rest)
    else some ([], c :: cs)

/-- Scan the integer part of a number: `0`, or a nonzero digit followed by
digits (`state0`, `state1`). -/
def scanInt (input : Bytes) : Option (Bytes × Bytes) :=
  match input with
  | [] => none
  | c :: cs =>
    if c = 48 then some ([48], cs)
    else if isDigit c then some (c :: (takeDigits cs).1, (takeDigits cs).2)
    else none

/-- Scan a number literal: optional `-` (`stateNeg`), integer part, fraction,
exponent. -/
def scanNumber (input : Bytes) : Option (Bytes × Bytes) :=
  let sign : Bytes × Bytes :=
    match input with
    | 45 :: cs => ([45], cs)
    | _ => ([], input)
  match scanInt sign.2 with
  | none => none
  | some (i, r1) =>
    match scanFraction r1 with
    | none => none
    | some (f, r2) =>
      match scanExponent r2 with
      | none => none
      | some (e, r3) => some (sign.1 ++ i ++ f ++ e, r3)

/-- Strip the given literal from the front of the input. -/
def expectLiteral : Bytes → Bytes → Option Bytes
  | [], input => some input
  | _ :: _, [] => none
  | p :: ps, c :: cs => if p = c then expectLiteral ps cs else none

mutual
/-- Parse one JSON value, white space before it included. `depth` is the
number of arrays and objects the value is nested in (the length of the
scanner's `parseState`); `fuel` bounds the recursion. -/
def parseValue : Nat → Nat → Bytes → Option (JSON × Bytes)
  | 0, _, _ => none
  | fuel + 1, depth, input =>
    match skipSpace input with
    | [] => none
    | c :: cs =>
      if c = 123 then
        if depth + 1 ≤ maxNestingDepth then
          match skipSpace cs with
          | [] => none
          | d :: ds =>
            if d = 125 then some (JSON.object [], ds)
            else (parseMembers fuel (depth + 1) (d :: ds)).map fun r => (JSON.object r.1, r.2)
        else none
      else if c = 91 then
        if depth + 1 ≤ maxNestingDepth then
          match skipSpace cs with
          | [] => none
          | d :: ds =>
            if d = 93 then some (JSON.array [], ds)
            else (parseElements fuel (depth + 1) (d :: ds)).map fun r => (JSON.array r.1, r.2)
        else none
      else if c = 34 then
        (scanString cs).map fun r => (JSON.string r.1, r.2)
      else if c = 45 ∨ isDigit c then
        (scanNumber (c :: cs)).map fun r => (JSON.number r.1, r.2)
      else if c = 116 then
        (expectLiteral (ascii "rue") cs).map fun r => (JSON.bool true, r)
      else if c = 102 then
        (expectLiteral (ascii "alse") cs).map fun r => (JSON.bool false, r)
      else if c = 110 then
        (expectLiteral (ascii "ull") cs).map fun r => (JSON.null, r)
      else none
/-- Parse the elements of a non-empty array up to and including `]`. -/
def parseElements : Nat → Nat → Bytes → Option (List JSON × Bytes)
  | 0, _, _ => none
  | fuel + 1, depth, input =>
    match parseValue fuel depth input with
    | none => none
    | some (v, rest) =>
      match skipSpace rest with
      | [] => none
      | c :: cs =>
        if c = 44 then (parseElements fuel depth cs).map fun r => (v :: r.1, r.2)
        else if c = 93 then some ([v], cs)
        else none
/-- Parse the members of a non-empty object up to and including `}`. -/
def parseMembers : Nat → Nat → Bytes → Option (List (Bytes × JSON) × Bytes)
  | 0, _, _ => none
  | fuel + 1, depth, input =>
    match skipSpace input with
    | [] => none
    | q :: cs =>
      if q = 34 then
        match scanString cs with
        | none => none
        | some (key, rest1) =>
          match skipSpace rest1 with
          | [] => none
          | colon :: rest2 =>
            if colon = 58 then
              match parseValue fuel depth rest2 with
              | none => none
              | some (v, rest3) =>
                match skipSpace rest3 with
                | [] => none
                | c :: rest4 =>
                  if c = 44 then
                    (parseMembers fuel depth rest4).map fun r => ((key, v) :: r.1, r.2)
                  else if c = 125 then some ([(key, v)], rest4)
                  else none
            else none
      else none
end

/-- Parse a complete JSON text: one value, then only white space
(`checkValid`: `stateEndTop` and `eof`). -/
def parse (b : Bytes) : Option JSON :=
  match parseValue (2 * b.length + 2) 0 b with
  | none => none
  | some (v, rest) => if skipSpace rest = [] then some v else none


/-! ## encoding/json: strings -/

/-- Digit `n < 16` of the encoder's table `hex = "0123456789abcdef"`. -/
def hexDigit (n : Nat) : Nat := if n < 10 then 48 + n else 87 + n

/-- Value of a hexadecimal digit. -/
def hexVal (c : Nat) : Nat := if c ≤ 57 then c - 48 else if c ≤ 70 then c - 55 else c - 87

/-- Go `utf8.EncodeRune` for a valid code point. -/
def encodeRune (r : Nat) : Bytes :=
  if r < 0x80 then [r]
  else if r < 0x800 then [0xC0 + r / 64, 0x80 + r % 64]
  else if r < 0x10000 then [0xE0 + r / 4096, 0x80 + r / 64 % 64, 0x80 + r % 64]
  else [0xF0 + r / 262144, 0x80 + r / 4096 % 64, 0x80 + r / 64 % 64, 0x80 + r % 64]

/-- UTF-8 continuation byte `0x80..0xBF`. -/
def isCont (c : Nat) : Bool := decide (0x80 ≤ c) && decide (c ≤ 0xBF)

/-- Go `utf8.DecodeRune`: the first code point and its width; ill-formed
input gives `(U+FFFD, 1)`. -/
def decodeRune : Bytes → Nat × Nat
  | [] => (0xFFFD, 0)
  | c0 :: rest =>
    if c0 < 0x80 then (c0, 1)
    else if 0xC2 ≤ c0 ∧ c0 ≤ 0xDF then
      match rest with
      | c1 :: _ => if isCont c1 then ((c0 - 0xC0) * 64 + (c1 - 0x80), 2) else (0xFFFD, 1)
      | _ => (0xFFFD, 1)
    else if 0xE0 ≤ c0 ∧ c0 ≤ 0xEF then
      match rest with
      | c1 :: c2 :: _ =>
        if (if c0 = 0xE0 then 0xA0 else 0x80) ≤ c1 ∧ c1 ≤ (if c0 = 0xED then 0x9F else 0xBF)
            ∧ isCont c2 then
          ((c0 - 0xE0) * 4096 + (c1 - 0x80) * 64 + (c2 - 0x80), 3)
        else (0xFFFD, 1)
      | _ => (0xFFFD, 1)
    else if 0xF0 ≤ c0 ∧ c0 ≤ 0xF4 then
      match rest with
      | c1 :: c2 :: c3 :: _ =>
        if (if c0 = 0xF0 then 0x90 else 0x80) ≤ c1 ∧ c1 ≤ (if c0 = 0xF4 then 0x8F else 0xBF)
            ∧ isCont c2 ∧ isCont c3 then
          ((c0 - 0xF0) * 262144 + (c1 - 0x80) * 4096 + (c2 - 0x80) * 64 + (c3 - 0x80), 4)
        else (0xFFFD, 1)
      | _ => (0xFFFD, 1)
    else (0xFFFD, 1)

/-- The decoder's `getu4`: the code unit of a leading `\uXXXX`. -/
def getu4 : Bytes → Option Nat
  | 92 :: 117 :: a :: b :: c :: d :: _ =>
    if isHex a && isHex b && isHex c && isHex d then
      some (((hexVal a * 16 + hexVal b) * 16 + hexVal c) * 16 + hexVal d)
    else none
  | _ => none

/-- The character a one-character escape stands for. -/
def unescape (e : Nat) : Nat :=
  if e = 98 then 8 else if e = 102 then 12 else if e = 110 then 10
  else if e = 114 then 13 else if e = 116 then 9 else e

/-- The decoder's `unquote` on the raw content of a string literal, as a
list of code points: escapes are resolved, surrogate pairs combined, and
ill-formed UTF-8 replaced by U+FFFD. -/
def unquoteRunes : Nat → Bytes → List Nat
  | 0, _ => []
  | _, [] => []
  | fuel + 1, c :: cs =>
    if c = 92 then
      match cs with
      | [] => []
      | e :: cs1 =>
        if e = 117 then
          match getu4 (c :: cs) with
          | none => []
          | some rr =>
            if 0xD800 ≤ rr ∧ rr < 0xE000 then
              match getu4 (cs1.drop 4) with
              | none => 0xFFFD :: unquoteRunes fuel (cs1.drop 4)
              | some rr1 =>
                if rr < 0xDC00 ∧ 0xDC00 ≤ rr1 ∧ rr1 < 0xE000 then
                  (0x10000 + (rr - 0xD800) * 1024 + (rr1 - 0xDC00)) ::
                    unquoteRunes fuel (cs1.drop 10)
                else 0xFFFD :: unquoteRunes fuel (cs1.drop 4)
            else rr :: unquoteRunes fuel (cs1.drop 4)
        else unescape e :: unquoteRunes fuel cs1
    else if c < 0x80 then c :: unquoteRunes fuel cs
    else (decodeRune (c :: cs)).1 :: unquoteRunes fuel (cs.drop ((decodeRune (c :: cs)).2 - 1))

/-- The Go string denoted by the raw content of a string literal. -/
def unquote (raw : Bytes) : String := String.mk ((unquoteRunes raw.length raw).map Char.ofNat)

/-- The encoder's escaping of one character of a string (`escapeHTML` set,
as `json.Marshal` does). -/
def quoteChar (c : Char) : Bytes :=
  if c.toNat = 34 ∨ c.toNat = 92 then [92, c.toNat]
  else if c.toNat = 10 then [92, 110]
  else if c.toNat = 13 then [92, 114]
  else if c.toNat = 9 then [92, 116]
  else if c.toNat < 32 ∨ c.toNat = 60 ∨ c.toNat = 62 ∨ c.toNat = 38 then
    [92, 117, 48, 48, hexDigit (c.toNat / 16), hexDigit (c.toNat % 16)]
  else if c.toNat = 0x2028 ∨ c.toNat = 0x2029 then
    [92, 117, 50, 48, 50, hexDigit (c.toNat % 16)]
  else encodeRune c.toNat

/-- The encoder's string literal for a Go string. -/
def quote (s : String) : Bytes := 34 :: (s.data.map quoteChar).flatten ++ [34]

/-- Simple case folding of one character, on the letters an ASCII name can
match: `A`..`Z`, the Kelvin sign and the long s. -/
def foldRune (c : Char) : Char :=
  if c.isUpper then c.toLower
  else if c.toNat = 0x212A then 'k'
  else if c.toNat = 0x17F then 's'
  else c

/-- Case-insensitive match of an (ASCII) field name with an object key. -/
def equalFold (name key : String) : Bool := name.data.map foldRune == key.data.map foldRune

/-! ## encoding/json: structs -/

/-- Go `error` values returned by `encoding/json`. -/
inductive JsonError where
  | SyntaxError : JsonError
  | UnmarshalTypeError (value : String) (field : String) : JsonError
  | UnsupportedTypeError (field : String) : JsonError
  deriving DecidableEq

/-- How a struct field of a given Go type is read and written. -/
inductive FieldAccess (σ : Type) where
  | bool (get : σ → Bool) (set : Bool → σ → σ) : FieldAccess σ
  | string (get : σ → String) (set : String → σ → σ) : FieldAccess σ
  | unsupported : FieldAccess σ

/-- A declared field of a struct type, without a `json` tag. -/
structure StructField (σ : Type) where
  name : String
  access : FieldAccess σ

/-- Go `IsExported`: the name starts with an upper-case letter (`A`..`Z` for
the ASCII names used here). -/
def isExported (name : String) : Bool :=
  match name.data with
  | [] => false
  | c :: _ => c.isUpper

/-- The fields `encoding/json` works on (`typeFields`): unexported fields are
skipped. -/
def typeFields {σ : Type} (decl : List (StructField σ)) : List (StructField σ) :=
  decl.filter fun f => isExported f.name

/-- Encode the value of one field. -/
def encodeFieldValue {σ : Type} (s : σ) (f : StructField σ) : Except JsonError Bytes :=
  match f.access with
  | FieldAccess.bool get _ => Except.ok (if get s then ascii "true" else ascii "false")
  | FieldAccess.string get _ => Except.ok (quote (get s))
  | FieldAccess.unsupported => Except.error (JsonError.UnsupportedTypeError f.name)

/-- Encode the members of a struct, `"name":value` each. -/
def encodeMembers {σ : Type} (s : σ) : List (StructField σ) → Except JsonError (List Bytes)
  | [] => Except.ok []
  | f :: fs =>
    match encodeFieldValue s f with
    | Except.error e => Except.error e
    | Except.ok v =>
      match encodeMembers s fs with
      | Except.error e => Except.error e
      | Except.ok ms => Except.ok ((quote f.name ++ 58 :: v) :: ms)

/-- Go `json.Marshal` on a pointer to a struct with the declared fields
`decl`: the bytes and the error. -/
def Marshal {σ : Type} (decl : List (StructField σ)) (s : σ) : Bytes × Option JsonError :=
  match encodeMembers s (typeFields decl) with
  | Except.error e => ([], some e)
  | Except.ok ms => (123 :: (ms.intersperse [44]).flatten ++ [125], none)

/-- The JSON type named in an `UnmarshalTypeError`. -/
def JSON.kind : JSON → String
  | JSON.null => "null"
  | JSON.bool _ => "bool"
  | JSON.number _ => "number"
  | JSON.string _ => "string"
  | JSON.array _ => "array"
  | JSON.object _ => "object"

/-- The field an object key selects: the field of that name, else the first
one that matches case-insensitively. -/
def findField {σ : Type} (fields : List (StructField σ)) (key : Bytes) : Option (StructField σ) :=
  match fields.find? fun f => f.name == unquote key with
  | some f => some f
  | none => fields.find? fun f => equalFold f.name (unquote key)

/-- Store a JSON value into a field: `null` leaves it alone, a value of
another JSON type is an `UnmarshalTypeError`. -/
def storeField {σ : Type} (f : StructField σ) (v : JSON) (s : σ) : σ × Option JsonError :=
  match v with
  | JSON.null => (s, none)
  | _ =>
    match f.access, v with
    | FieldAccess.bool _ set, JSON.bool b => (set b s, none)
    | FieldAccess.string _ set, JSON.string raw => (set (unquote raw) s, none)
    | _, _ => (s, some (JsonError.UnmarshalTypeError v.kind f.name))

/-- Decode the members of an object into a struct: a key that selects no
field is skipped with its value; the first error is kept and decoding goes
on. -/
def decodeMembers {σ : Type} (fields : List (StructField σ)) :
    List (Bytes × JSON) → σ → σ × Option JsonError
  | [], s => (s, none)
  | (key, v) :: ms, s =>
    match findField fields key with
    | none => decodeMembers fields ms s
    | some f =>
      let r1 := storeField f v s
      let r2 := decodeMembers fields ms r1.1
      (r2.1, r1.2 <|> r2.2)

/-- Go `json.Unmarshal` into a pointer to a struct `s` with the declared
fields `decl`: the struct afterwards and the error. The input is checked for
well-formedness first; `null` is a no-op; any other non-object is an
`UnmarshalTypeError`. -/
def Unmarshal {σ : Type} (decl : List (StructField σ)) (b : Bytes) (s : σ) : σ × Option JsonError :=
  match parse b with
  | none => (s, some JsonError.SyntaxError)
  | some (JSON.object ms) => decodeMembers (typeFields decl) ms s
  | some JSON.null => (s, none)
  | some v => (s, some (JsonError.UnmarshalTypeError v.kind ""))

/-! ## pkg/boot/linux/opts.go -/

/-- An `io.ReaderAt`: a byte source readable at an offset. -/
structure ReaderAt where
  content : Bytes
  deriving DecidableEq

/-- The options passed to `KexecLoad`. `DTB` is an interface value, `none`
when nil. -/
structure KexecOptions where
  DTB : Option ReaderAt
  MmapKernel : Bool
  MmapRamfs : Bool
  deriving DecidableEq

/-- The struct handed to `encoding/json` in place of `KexecOptions`. -/
structure kexecOptionsJSON where
  dtb : String
  mmapKernel : Bool
  mmapRamfs : Bool
  deriving DecidableEq

/-- The declared fields of `kexecOptionsJSON`, in order. -/
def kexecOptionsJSON.fields : List (StructField kexecOptionsJSON) :=
  [ ⟨"dtb", FieldAccess.string (fun s => s.dtb) (fun v s => { s with dtb := v })⟩,
    ⟨"mmapKernel", FieldAccess.bool (fun s => s.mmapKernel) (fun v s => { s with mmapKernel := v })⟩,
    ⟨"mmapRamfs", FieldAccess.bool (fun s => s.mmapRamfs) (fun v s => { s with mmapRamfs := v })⟩ ]

/-- The zero value `kexecOptionsJSON{}`. -/
def kexecOptionsJSON.zero : kexecOptionsJSON := ⟨"", false, false⟩

/-- The zero value `KexecOptions{}`. -/
def KexecOptions.zero : KexecOptions := ⟨none, false, false⟩

/-- Method `func (ko *KexecOptions) MarshalJSON() ([]byte, error)`. -/
def MarshalJSON (ko : KexecOptions) : Bytes × Option JsonError :=
  let koJSON := kexecOptionsJSON.zero
  let koJSON := { koJSON with mmapKernel := ko.MmapKernel }
  let koJSON := { koJSON with mmapRamfs := ko.MmapRamfs }
  Marshal kexecOptionsJSON.fields koJSON

/-- Method `func (ko *KexecOptions) UnmarshalJSON(b []byte) error`: the receiver
after the call and the error. -/
def UnmarshalJSON (ko : KexecOptions) (b : Bytes) : KexecOptions × Option JsonError :=
  let koJSON := kexecOptionsJSON.zero
  match Unmarshal kexecOptionsJSON.fields b koJSON with
  | (_, some err) => (ko, some err)
  | (koJSON, none) =>
    let ko := { ko with MmapKernel := koJSON.mmapKernel }
    let ko := { ko with MmapRamfs := koJSON.mmapRamfs }
    (ko, none)


/-- For comparison only, not in the source: the fields of `kexecOptionsJSON`
as they would be declared under exported names. -/
def exportedVariant : List (StructField kexecOptionsJSON) :=
  [ ⟨"Dtb", FieldAccess.string (fun s => s.dtb) (fun v s => { s with dtb := v })⟩,
    ⟨"MmapKernel", FieldAccess.bool (fun s => s.mmapKernel) (fun v s => { s with mmapKernel := v })⟩,
    ⟨"MmapRamfs", FieldAccess.bool (fun s => s.mmapRamfs) (fun v s => { s with mmapRamfs := v })⟩ ]

/-! ## The JSON grammar (RFC 8259), read over bytes -/

/-- White space `ws`: any number of spaces, tabs, line feeds and carriage returns. -/
def IsWs (w : Bytes) : Prop := ∀ c ∈ w, c = 32 ∨ c = 9 ∨ c = 10 ∨ c = 13

/-- Digits, `*DIGIT`. -/
def IsDigits (ds : Bytes) : Prop := ∀ d ∈ ds, 48 ≤ d ∧ d ≤ 57

/-- Hexadecimal digit `HEXDIG`, either case. -/
def IsHexDigit (h : Nat) : Prop := (48 ≤ h ∧ h ≤ 57) ∨ (65 ≤ h ∧ h ≤ 70) ∨ (97 ≤ h ∧ h ≤ 102)

/-- Integer part, `int = zero / ( digit1-9 *DIGIT )`. -/
inductive IsInt : Bytes → Prop where
  | zero : IsInt [48]
  | nonzero (d : Nat) (ds : Bytes) : 49 ≤ d → d ≤ 57 → IsDigits ds → IsInt (d :: ds)

/-- Optional fraction `[ frac ]`, `frac = decimal-point 1*DIGIT`. -/
inductive IsFrac : Bytes → Prop where
  | absent : IsFrac []
  | present (ds : Bytes) : ds ≠ [] → IsDigits ds → IsFrac (46 :: ds)

/-- Optional exponent `[ exp ]`, `exp = e [ minus / plus ] 1*DIGIT`. -/
inductive IsExp : Bytes → Prop where
  | absent : IsExp []
  | unsigned (e : Nat) (ds : Bytes) : e = 101 ∨ e = 69 → ds ≠ [] → IsDigits ds → IsExp (e :: ds)
  | signed (e s : Nat) (ds : Bytes) :
      e = 101 ∨ e = 69 → s = 43 ∨ s = 45 → ds ≠ [] → IsDigits ds → IsExp (e :: s :: ds)

/-- Number, `number = [ minus ] int [ frac ] [ exp ]`. -/
inductive IsNumber : Bytes → Prop where
  | pos (i f e : Bytes) : IsInt i → IsFrac f → IsExp e → IsNumber (i ++ f ++ e)
  | neg (i f e : Bytes) : IsInt i → IsFrac f → IsExp e → IsNumber (45 :: (i ++ f ++ e))

/-- Characters `*char`: the content of a string. A character is any byte from 0x20 on
other than the quotation mark and the backslash, or an escape. -/
inductive IsChars : Bytes → Prop where
  | nil : IsChars []
  | unescaped (c : Nat) (cs : Bytes) : 32 ≤ c → c ≠ 34 → c ≠ 92 → IsChars cs → IsChars (c :: cs)
  | escape (e : Nat) (cs : Bytes) :
      e = 34 ∨ e = 92 ∨ e = 47 ∨ e = 98 ∨ e = 102 ∨ e = 110 ∨ e = 114 ∨ e = 116 →
      IsChars cs → IsChars (92 :: e :: cs)
  | unicode (h1 h2 h3 h4 : Nat) (cs : Bytes) :
      IsHexDigit h1 → IsHexDigit h2 → IsHexDigit h3 → IsHexDigit h4 →
      IsChars cs → IsChars (92 :: 117 :: h1 :: h2 :: h3 :: h4 :: cs)

mutual
/-- Value, `value = false / null / true / object / array / number / string`. -/
inductive IsValue : Bytes → Prop where
  | null : IsValue [110, 117, 108, 108]
  | true : IsValue [116, 114, 117, 101]
  | false : IsValue [102, 97, 108, 115, 101]
  | number (n : Bytes) : IsNumber n → IsValue n
  | string (s : Bytes) : IsChars s → IsValue (34 :: (s ++ [34]))
  | emptyArray (w : Bytes) : IsWs w → IsValue (91 :: (w ++ [93]))
  | array (es : Bytes) : IsElements es → IsValue (91 :: (es ++ [93]))
  | emptyObject (w : Bytes) : IsWs w → IsValue (123 :: (w ++ [125]))
  | object (ms : Bytes) : IsMembers ms → IsValue (123 :: (ms ++ [125]))
/-- The content of a non-empty array: `ws value ws`, separated by commas. -/
inductive IsElements : Bytes → Prop where
  | one (w1 v w2 : Bytes) : IsWs w1 → IsValue v → IsWs w2 → IsElements (w1 ++ v ++ w2)
  | cons (w1 v w2 es : Bytes) :
      IsWs w1 → IsValue v → IsWs w2 → IsElements es → IsElements (w1 ++ v ++ w2 ++ 44 :: es)
/-- The content of a non-empty object: `ws string ws : ws value ws`,
separated by commas. -/
inductive IsMembers : Bytes → Prop where
  | one (w1 k w2 w3 v w4 : Bytes) :
      IsWs w1 → IsChars k → IsWs w2 → IsWs w3 → IsValue v → IsWs w4 →
      IsMembers (w1 ++ 34 :: (k ++ [34]) ++ w2 ++ 58 :: (w3 ++ v ++ w4))
  | cons (w1 k w2 w3 v w4 ms : Bytes) :
      IsWs w1 → IsChars k → IsWs w2 → IsWs w3 → IsValue v → IsWs w4 → IsMembers ms →
      IsMembers (w1 ++ 34 :: (k ++ [34]) ++ w2 ++ 58 :: (w3 ++ v ++ w4) ++ 44 :: ms)
end

/-- Text `JSON-text = ws value ws`: the input is syntactically valid JSON. -/
def ValidJSON (b : Bytes) : Prop :=
  ∃ w1 v w2, b = w1 ++ v ++ w2 ∧ IsWs w1 ∧ IsValue v ∧ IsWs w2

/-- The input is a syntactically valid JSON text whose value is an object. -/
def ValidJSONObject (b : Bytes) : Prop :=
  ∃ w1 body w2, b = w1 ++ 123 :: (body ++ [125]) ++ w2 ∧ IsWs w1 ∧ IsWs w2 ∧
    IsValue (123 :: (body ++ [125]))
/-- What may follow a value inside a text: nothing, white space, a comma or a
closing bracket or brace. -/
def Delimited (rest : Bytes) : Prop :=
  ∀ c cs, rest = c :: cs → c = 32 ∨ c = 9 ∨ c = 10 ∨ c = 13 ∨ c = 44 ∨ c = 93 ∨ c = 125

/-- The number of opening brackets and braces among the bytes: a bound on
how deep the text nests. -/
def openings (b : Bytes) : Nat := b.countP fun c => c == 91 || c == 123

/-! ## What `encoding/json` sees of `kexecOptionsJSON` -/

/-- None of the three fields of `kexecOptionsJSON` is exported. -/
theorem typeFields_kexecOptionsJSON : typeFields kexecOptionsJSON.fields = [] := rfl

/-- With no field to match, every member of an object is skipped. -/
theorem decodeMembers_nil {σ : Type} (ms : List (Bytes × JSON)) (s : σ) :
    decodeMembers ([] : List (StructField σ)) ms s = (s, none) := by
  induction ms with
  | nil => rfl
  | cons m ms ih =>
    obtain ⟨key, v⟩ := m
    simp [decodeMembers, findField, ih]

/-- Go `json.Marshal` of a `kexecOptionsJSON` is the empty object. -/
theorem Marshal_kexecOptionsJSON (s : kexecOptionsJSON) :
    Marshal kexecOptionsJSON.fields s = ([123, 125], none) := by
  simp [Marshal, typeFields_kexecOptionsJSON, encodeMembers]

/-- Go `json.Unmarshal` into a `kexecOptionsJSON` never changes it. -/
theorem Unmarshal_kexecOptionsJSON_fst (b : Bytes) (s : kexecOptionsJSON) :
    (Unmarshal kexecOptionsJSON.fields b s).1 = s := by
  unfold Unmarshal
  rw [typeFields_kexecOptionsJSON]
  split <;> simp [decodeMembers_nil]

/-- Go `json.Unmarshal` into a `kexecOptionsJSON` fails exactly when the input is
neither an object nor `null`. -/
theorem Unmarshal_kexecOptionsJSON_snd (b : Bytes) (s : kexecOptionsJSON) :
    (Unmarshal kexecOptionsJSON.fields b s).2 = none ↔
      ((∃ ms, parse b = some (JSON.object ms)) ∨ parse b = some JSON.null) := by
  unfold Unmarshal
  rw [typeFields_kexecOptionsJSON]
  split <;> simp_all [decodeMembers_nil]

/-- Method `MarshalJSON` returns `{}` and no error, whatever the options. -/
theorem MarshalJSON_eq (ko : KexecOptions) : MarshalJSON ko = ([123, 125], none) := by
  simp [MarshalJSON, Marshal_kexecOptionsJSON]

/-- Method `UnmarshalJSON` on success: both flags are cleared, `DTB` is kept. -/
theorem UnmarshalJSON_of_ok (ko : KexecOptions) (b : Bytes)
    (h : (Unmarshal kexecOptionsJSON.fields b kexecOptionsJSON.zero).2 = none) :
    UnmarshalJSON ko b = (⟨ko.DTB, false, false⟩, none) := by
  have h1 := Unmarshal_kexecOptionsJSON_fst b kexecOptionsJSON.zero
  unfold UnmarshalJSON
  dsimp only
  generalize Unmarshal kexecOptionsJSON.fields b kexecOptionsJSON.zero = r at h h1
  obtain ⟨t, e⟩ := r
  simp only at h h1
  subst h h1
  rfl

/-- Method `UnmarshalJSON` on failure: the receiver is returned as it was, with the
error of `json.Unmarshal`. -/
theorem UnmarshalJSON_of_error (ko : KexecOptions) (b : Bytes) (err : JsonError)
    (h : (Unmarshal kexecOptionsJSON.fields b kexecOptionsJSON.zero).2 = some err) :
    UnmarshalJSON ko b = (ko, some err) := by
  unfold UnmarshalJSON
  dsimp only
  generalize Unmarshal kexecOptionsJSON.fields b kexecOptionsJSON.zero = r at h
  obtain ⟨t, e⟩ := r
  simp only at h
  subst h
  rfl

/-- The error of `UnmarshalJSON` is the error of `json.Unmarshal`. -/
theorem UnmarshalJSON_snd (ko : KexecOptions) (b : Bytes) :
    (UnmarshalJSON ko b).2 = (Unmarshal kexecOptionsJSON.fields b kexecOptionsJSON.zero).2 := by
  cases h : (Unmarshal kexecOptionsJSON.fields b kexecOptionsJSON.zero).2 with
  | none => rw [UnmarshalJSON_of_ok ko b h]
  | some err => rw [UnmarshalJSON_of_error ko b err h]


/-! ## The parser accepts only texts of the grammar -/

theorem IsWs_nil : IsWs [] := by intro c hc; cases hc

theorem IsWs_append {a b : Bytes} (ha : IsWs a) (hb : IsWs b) : IsWs (a ++ b) := by
  intro c hc
  rcases List.mem_append.mp hc with h | h
  · exact ha c h
  · exact hb c h

theorem isSpace_iff (c : Nat) : isSpace c = true ↔ (c = 32 ∨ c = 9 ∨ c = 10 ∨ c = 13) := by
  simp [isSpace]; tauto

theorem isDigit_iff (c : Nat) : isDigit c = true ↔ (48 ≤ c ∧ c ≤ 57) := by
  simp [isDigit]

theorem isHex_iff (c : Nat) : isHex c = true ↔ IsHexDigit c := by
  simp [isHex, isDigit, IsHexDigit]; tauto

/-- Function `skipSpace` removes a run of white space. -/
theorem skipSpace_spec (input : Bytes) : ∃ w, input = w ++ skipSpace input ∧ IsWs w := by
  induction input with
  | nil => exact ⟨[], rfl, IsWs_nil⟩
  | cons c cs ih =>
    unfold skipSpace
    split
    · obtain ⟨w, hw, hws⟩ := ih
      refine ⟨c :: w, by rw [List.cons_append, ← hw], ?_⟩
      intro x hx
      rcases List.mem_cons.mp hx with h | h
      · subst h; exact (isSpace_iff x).mp (by assumption)
      · exact hws x h
    · exact ⟨[], rfl, IsWs_nil⟩

/-- Function `takeDigits` splits the input after a run of digits. -/
theorem takeDigits_spec (input : Bytes) :
    input = (takeDigits input).1 ++ (takeDigits input).2 ∧ IsDigits (takeDigits input).1 := by
  induction input with
  | nil => exact ⟨rfl, by intro d hd; cases hd⟩
  | cons c cs ih =>
    unfold takeDigits
    split
    · refine ⟨by simp [← ih.1], ?_⟩
      intro x hx
      rcases List.mem_cons.mp hx with h | h
      · subst h; exact (isDigit_iff x).mp (by assumption)
      · exact ih.2 x h
    · exact ⟨rfl, by intro d hd; cases hd⟩

/-- A scanned string literal is `*char` followed by the closing quote. -/
theorem scanString_sound : ∀ (n : Nat) (cs raw rest : Bytes), cs.length ≤ n →
    scanString cs = some (raw, rest) → cs = raw ++ 34 :: rest ∧ IsChars raw := by
  intro n
  induction n with
  | zero =>
    intro cs raw rest hn h
    have : cs = [] := List.length_eq_zero.mp (Nat.le_zero.mp hn)
    subst this
    simp [scanString] at h
  | succ n ih =>
    intro cs raw rest hn h
    cases cs with
    | nil => simp [scanString] at h
    | cons c cs =>
      unfold scanString at h
      simp only [List.length_cons] at hn
      split at h
      · simp at h
        obtain ⟨h1, h2⟩ := h
        subst h1 h2
        rename_i hc
        subst hc
        exact ⟨rfl, IsChars.nil⟩
      · split at h
        · rename_i hc1 hc2
          subst hc2
          cases cs with
          | nil => simp at h
          | cons e cs1 =>
            simp only [List.length_cons] at hn
            simp only at h
            split at h
            · rename_i he
              simp only [Option.map_eq_some'] at h
              obtain ⟨⟨r1, r2⟩, hr, heq⟩ := h
              simp only [Prod.mk.injEq] at heq
              obtain ⟨h1, h2⟩ := heq
              subst h1 h2
              obtain ⟨e1, e2⟩ := ih cs1 r1 r2 (by omega) hr
              refine ⟨by simp [e1], IsChars.escape e r1 ?_ e2⟩
              simp [isSimpleEscape] at he
              omega
            · split at h
              · rename_i he1 he2
                subst he2
                split at h
                · rename_i h1 h2 h3 h4 cs2
                  simp only [List.length_cons] at hn
                  split at h
                  · rename_i hh
                    simp only [Bool.and_eq_true] at hh
                    simp only [Option.map_eq_some'] at h
                    obtain ⟨⟨r1, r2⟩, hr, heq⟩ := h
                    simp only [Prod.mk.injEq] at heq
                    obtain ⟨e1, e2⟩ := heq
                    subst e1 e2
                    obtain ⟨e1, e2⟩ := ih cs2 r1 r2 (by omega) hr
                    exact ⟨by simp [e1], IsChars.unicode h1 h2 h3 h4 r1
                      ((isHex_iff _).mp hh.1.1.1) ((isHex_iff _).mp hh.1.1.2)
                      ((isHex_iff _).mp hh.1.2) ((isHex_iff _).mp hh.2) e2⟩
                  · simp at h
                · simp at h
              · simp at h
        · split at h
          · simp at h
          · rename_i hc1 hc2 hc3
            simp only [Option.map_eq_some'] at h
            obtain ⟨⟨r1, r2⟩, hr, heq⟩ := h
            simp only [Prod.mk.injEq] at heq
            obtain ⟨e1, e2⟩ := heq
            subst e1 e2
            obtain ⟨e1, e2⟩ := ih cs r1 r2 (by omega) hr
            exact ⟨by simp [e1], IsChars.unescaped c r1 (by omega) hc1 hc2 e2⟩

theorem scanInt_sound (input i rest : Bytes) (h : scanInt input = some (i, rest)) :
    input = i ++ rest ∧ IsInt i := by
  unfold scanInt at h
  split at h
  · simp at h
  · rename_i c cs
    split at h
    · rename_i hc
      simp only [Option.some.injEq, Prod.mk.injEq] at h
      obtain ⟨h1, h2⟩ := h
      subst h1 h2 hc
      exact ⟨rfl, IsInt.zero⟩
    · split at h
      · rename_i hc hd
        simp only [Option.some.injEq, Prod.mk.injEq] at h
        obtain ⟨h1, h2⟩ := h
        subst h1 h2
        have hs := takeDigits_spec cs
        have hd2 := (isDigit_iff c).mp hd
        refine ⟨by rw [List.cons_append, ← hs.1], IsInt.nonzero c _ (by omega) hd2.2 hs.2⟩
      · simp at h

theorem scanFraction_sound (input f rest : Bytes) (h : scanFraction input = some (f, rest)) :
    input = f ++ rest ∧ IsFrac f := by
  unfold scanFraction at h
  split at h
  · rename_i cs
    have hs := takeDigits_spec cs
    split at h
    · simp at h
    · rename_i ds r hne heq
      simp only [Option.some.injEq, Prod.mk.injEq] at h
      obtain ⟨h1, h2⟩ := h
      subst h1 h2
      rw [heq] at hs
      exact ⟨by rw [List.cons_append, ← hs.1], IsFrac.present ds hne hs.2⟩
  · simp only [Option.some.injEq, Prod.mk.injEq] at h
    obtain ⟨h1, h2⟩ := h
    subst h1 h2
    exact ⟨rfl, IsFrac.absent⟩

theorem scanExponent_sound (input e rest : Bytes) (h : scanExponent input = some (e, rest)) :
    input = e ++ rest ∧ IsExp e := by
  unfold scanExponent at h
  split at h
  · simp only [Option.some.injEq, Prod.mk.injEq] at h
    obtain ⟨h1, h2⟩ := h
    subst h1 h2
    exact ⟨rfl, IsExp.absent⟩
  · rename_i c cs
    split at h
    · rename_i hc
      split at h
      · simp at h
      · rename_i s cs1
        split at h
        · rename_i hsgn
          have hs := takeDigits_spec cs1
          split at h
          · simp at h
          · rename_i ds r hne heq
            simp only [Option.some.injEq, Prod.mk.injEq] at h
            obtain ⟨h1, h2⟩ := h
            subst h1 h2
            rw [heq] at hs
            exact ⟨by simp only [List.cons_append]; rw [← hs.1],
              IsExp.signed c s ds hc hsgn hne hs.2⟩
        · have hs := takeDigits_spec (s :: cs1)
          split at h
          · simp at h
          · rename_i ds r hne heq
            simp only [Option.some.injEq, Prod.mk.injEq] at h
            obtain ⟨h1, h2⟩ := h
            subst h1 h2
            rw [heq] at hs
            exact ⟨by simp only [List.cons_append]; rw [← hs.1],
              IsExp.unsigned c ds hc hne hs.2⟩
    · simp only [Option.some.injEq, Prod.mk.injEq] at h
      obtain ⟨h1, h2⟩ := h
      subst h1 h2
      exact ⟨rfl, IsExp.absent⟩

/-- A scanned number literal is a `number` of the grammar. -/
theorem scanNumber_sound (input raw rest : Bytes) (h : scanNumber input = some (raw, rest)) :
    input = raw ++ rest ∧ IsNumber raw := by
  unfold scanNumber at h
  simp only at h
  split at h
  · simp at h
  · rename_i i r1 hi
    split at h
    · simp at h
    · rename_i f r2 hf
      split at h
      · simp at h
      · rename_i e r3 he
        simp only [Option.some.injEq, Prod.mk.injEq] at h
        obtain ⟨h1, h2⟩ := h
        subst h1 h2
        obtain ⟨ef, pf⟩ := scanFraction_sound _ _ _ hf
        obtain ⟨ee, pe⟩ := scanExponent_sound _ _ _ he
        split at hi
        · rename_i cs
          obtain ⟨ei, pi⟩ := scanInt_sound _ _ _ hi
          simp only at ei
          refine ⟨?_, ?_⟩
          · simp only [List.cons_append, List.nil_append, List.append_assoc, List.singleton_append]
            rw [ei, ef, ee]
          · simpa using IsNumber.neg i f e pi pf pe
        · obtain ⟨ei, pi⟩ := scanInt_sound _ _ _ hi
          simp only at ei
          refine ⟨?_, ?_⟩
          · simp only [List.nil_append, List.append_assoc]
            rw [ei, ef, ee]
          · simpa using IsNumber.pos i f e pi pf pe

theorem expectLiteral_sound : ∀ (p input rest : Bytes),
    expectLiteral p input = some rest → input = p ++ rest := by
  intro p
  induction p with
  | nil => intro input rest h; simp [expectLiteral] at h; simp [h]
  | cons c p ih =>
    intro input rest h
    cases input with
    | nil => simp [expectLiteral] at h
    | cons d ds =>
      simp only [expectLiteral] at h
      split at h
      · rename_i hcd
        subst hcd
        rw [ih ds rest h]; rfl
      · simp at h

theorem IsElements_prepend {w es : Bytes} (hw : IsWs w) (h : IsElements es) :
    IsElements (w ++ es) := by
  cases h with
  | one w1 v w2 h1 hv h2 =>
    have := IsElements.one (w ++ w1) v w2 (IsWs_append hw h1) hv h2
    simpa [List.append_assoc] using this
  | cons w1 v w2 es h1 hv h2 hes =>
    have := IsElements.cons (w ++ w1) v w2 es (IsWs_append hw h1) hv h2 hes
    simpa [List.append_assoc] using this

theorem IsMembers_prepend {w ms : Bytes} (hw : IsWs w) (h : IsMembers ms) :
    IsMembers (w ++ ms) := by
  cases h with
  | one w1 k w2 w3 v w4 h1 hk h2 h3 hv h4 =>
    have := IsMembers.one (w ++ w1) k w2 w3 v w4 (IsWs_append hw h1) hk h2 h3 hv h4
    simpa [List.append_assoc] using this
  | cons w1 k w2 w3 v w4 ms h1 hk h2 h3 hv h4 hms =>
    have := IsMembers.cons (w ++ w1) k w2 w3 v w4 ms (IsWs_append hw h1) hk h2 h3 hv h4 hms
    simpa [List.append_assoc] using this

/-- What the three parsers consume is, for `parseValue`, white space and a
`value` (an object in braces when the result is an object); for
`parseElements` and `parseMembers`, the content of an array or object and the
closing bracket. -/
theorem parse_sound_aux (fuel : Nat) :
    (∀ depth input v rest, parseValue fuel depth input = some (v, rest) →
      ∃ w t, input = w ++ t ++ rest ∧ IsWs w ∧ IsValue t ∧
        (∀ ms, v = JSON.object ms → ∃ body, t = 123 :: (body ++ [125]))) ∧
    (∀ depth input vs rest, parseElements fuel depth input = some (vs, rest) →
      ∃ es, input = es ++ 93 :: rest ∧ IsElements es) ∧
    (∀ depth input ms rest, parseMembers fuel depth input = some (ms, rest) →
      ∃ body, input = body ++ 125 :: rest ∧ IsMembers body) := by
  induction fuel with
  | zero =>
    refine ⟨?_, ?_, ?_⟩ <;> intro depth input v rest h
    · simp [parseValue] at h
    · simp [parseElements] at h
    · simp [parseMembers] at h
  | succ fuel ih =>
    obtain ⟨ihV, ihE, ihM⟩ := ih
    refine ⟨?_, ?_, ?_⟩
    · intro depth input v rest h
      obtain ⟨w, hw, hws⟩ := skipSpace_spec input
      unfold parseValue at h
      split at h
      · simp at h
      · rename_i c cs hsk
        rw [hsk] at hw
        split at h
        · -- object
          rename_i hc
          subst hc
          split at h
          · obtain ⟨w', hw', hws'⟩ := skipSpace_spec cs
            split at h
            · simp at h
            · rename_i d ds hsk'
              rw [hsk'] at hw'
              split at h
              · rename_i hd
                subst hd
                simp only [Option.some.injEq, Prod.mk.injEq] at h
                obtain ⟨h1, h2⟩ := h
                subst h1 h2
                refine ⟨w, 123 :: (w' ++ [125]), ?_, hws, IsValue.emptyObject w' hws', ?_⟩
                · rw [hw, hw']; simp
                · intro ms _; exact ⟨w', rfl⟩
              · simp only [Option.map_eq_some'] at h
                obtain ⟨⟨r1, r2⟩, hr, heq⟩ := h
                simp only [Prod.mk.injEq] at heq
                obtain ⟨h1, h2⟩ := heq
                subst h1 h2
                obtain ⟨body, hb, hbm⟩ := ihM _ _ _ _ hr
                refine ⟨w, 123 :: (w' ++ body ++ [125]), ?_, hws,
                  IsValue.object _ (IsMembers_prepend hws' hbm), ?_⟩
                · rw [hw, hw', hb]; simp
                · intro ms _; exact ⟨w' ++ body, rfl⟩
          · simp at h
        · split at h
          · -- array
            rename_i hc1 hc
            subst hc
            split at h
            · obtain ⟨w', hw', hws'⟩ := skipSpace_spec cs
              split at h
              · simp at h
              · rename_i d ds hsk'
                rw [hsk'] at hw'
                split at h
                · rename_i hd
                  subst hd
                  simp only [Option.some.injEq, Prod.mk.injEq] at h
                  obtain ⟨h1, h2⟩ := h
                  subst h1 h2
                  refine ⟨w, 91 :: (w' ++ [93]), ?_, hws, IsValue.emptyArray w' hws', ?_⟩
                  · rw [hw, hw']; simp
                  · intro ms hms; cases hms
                · simp only [Option.map_eq_some'] at h
                  obtain ⟨⟨r1, r2⟩, hr, heq⟩ := h
                  simp only [Prod.mk.injEq] at heq
                  obtain ⟨h1, h2⟩ := heq
                  subst h1 h2
                  obtain ⟨es, hb, hbm⟩ := ihE _ _ _ _ hr
                  refine ⟨w, 91 :: (w' ++ es ++ [93]), ?_, hws,
                    IsValue.array _ (IsElements_prepend hws' hbm), ?_⟩
                  · rw [hw, hw', hb]; simp
                  · intro ms hms; cases hms
            · simp at h
          · split at h
            · -- string
              rename_i hc1 hc2 hc
              subst hc
              simp only [Option.map_eq_some'] at h
              obtain ⟨⟨r1, r2⟩, hr, heq⟩ := h
              simp only [Prod.mk.injEq] at heq
              obtain ⟨h1, h2⟩ := heq
              subst h1 h2
              obtain ⟨e1, e2⟩ := scanString_sound _ cs r1 r2 (Nat.le_refl _) hr
              refine ⟨w, 34 :: (r1 ++ [34]), ?_, hws, IsValue.string r1 e2, ?_⟩
              · rw [hw, e1]; simp
              · intro ms hms; cases hms
            · split at h
              · -- number
                simp only [Option.map_eq_some'] at h
                obtain ⟨⟨r1, r2⟩, hr, heq⟩ := h
                simp only [Prod.mk.injEq] at heq
                obtain ⟨h1, h2⟩ := heq
                subst h1 h2
                obtain ⟨e1, e2⟩ := scanNumber_sound _ _ _ hr
                refine ⟨w, r1, ?_, hws, IsValue.number r1 e2, ?_⟩
                · rw [hw, e1]; simp
                · intro ms hms; cases hms
              · split at h
                · rename_i hc
                  subst hc
                  simp only [Option.map_eq_some'] at h
                  obtain ⟨r, hr, heq⟩ := h
                  simp only [Prod.mk.injEq] at heq
                  obtain ⟨h1, h2⟩ := heq
                  subst h1 h2
                  have e1 := expectLiteral_sound _ _ _ hr
                  refine ⟨w, [116, 114, 117, 101], ?_, hws, IsValue.true, ?_⟩
                  · rw [hw, e1, show ascii "rue" = [114, 117, 101] from rfl]; simp
                  · intro ms hms; cases hms
                · split at h
                  · rename_i hc
                    subst hc
                    simp only [Option.map_eq_some'] at h
                    obtain ⟨r, hr, heq⟩ := h
                    simp only [Prod.mk.injEq] at heq
                    obtain ⟨h1, h2⟩ := heq
                    subst h1 h2
                    have e1 := expectLiteral_sound _ _ _ hr
                    refine ⟨w, [102, 97, 108, 115, 101], ?_, hws, IsValue.false, ?_⟩
                    · rw [hw, e1, show ascii "alse" = [97, 108, 115, 101] from rfl]; simp
                    · intro ms hms; cases hms
                  · split at h
                    · rename_i hc
                      subst hc
                      simp only [Option.map_eq_some'] at h
                      obtain ⟨r, hr, heq⟩ := h
                      simp only [Prod.mk.injEq] at heq
                      obtain ⟨h1, h2⟩ := heq
                      subst h1 h2
                      have e1 := expectLiteral_sound _ _ _ hr
                      refine ⟨w, [110, 117, 108, 108], ?_, hws, IsValue.null, ?_⟩
                      · rw [hw, e1, show ascii "ull" = [117, 108, 108] from rfl]; simp
                      · intro ms hms; cases hms
                    · simp at h
    · intro depth input vs rest h
      unfold parseElements at h
      split at h
      · simp at h
      · rename_i v r hv
        obtain ⟨w1, t, e1, hw1, ht, _⟩ := ihV _ _ _ _ hv
        obtain ⟨w2, hw2, hws2⟩ := skipSpace_spec r
        split at h
        · simp at h
        · rename_i c cs hsk
          rw [hsk] at hw2
          split at h
          · rename_i hc
            subst hc
            simp only [Option.map_eq_some'] at h
            obtain ⟨⟨r1, r2⟩, hr, heq⟩ := h
            simp only [Prod.mk.injEq] at heq
            obtain ⟨h1, h2⟩ := heq
            subst h1 h2
            obtain ⟨es, hb, hbm⟩ := ihE _ _ _ _ hr
            refine ⟨w1 ++ t ++ w2 ++ 44 :: es, ?_, IsElements.cons w1 t w2 es hw1 ht hws2 hbm⟩
            rw [e1, hw2, hb]; simp
          · split at h
            · rename_i hc1 hc
              subst hc
              simp only [Option.some.injEq, Prod.mk.injEq] at h
              obtain ⟨h1, h2⟩ := h
              subst h1 h2
              refine ⟨w1 ++ t ++ w2, ?_, IsElements.one w1 t w2 hw1 ht hws2⟩
              rw [e1, hw2]; simp
            · simp at h
    · intro depth input ms rest h
      unfold parseMembers at h
      obtain ⟨w1, hw1, hws1⟩ := skipSpace_spec input
      split at h
      · simp at h
      · rename_i q cs hsk
        rw [hsk] at hw1
        split at h
        · rename_i hq
          subst hq
          split at h
          · simp at h
          · rename_i key rest1 hkey
            obtain ⟨ek, hk⟩ := scanString_sound _ cs key rest1 (Nat.le_refl _) hkey
            obtain ⟨w2, hw2, hws2⟩ := skipSpace_spec rest1
            split at h
            · simp at h
            · rename_i colon rest2 hsk2
              rw [hsk2] at hw2
              split at h
              · rename_i hcolon
                subst hcolon
                split at h
                · simp at h
                · rename_i v rest3 hv
                  obtain ⟨w3, t, e3, hws3, ht, _⟩ := ihV _ _ _ _ hv
                  obtain ⟨w4, hw4, hws4⟩ := skipSpace_spec rest3
                  split at h
                  · simp at h
                  · rename_i c rest4 hsk4
                    rw [hsk4] at hw4
                    split at h
                    · rename_i hc
                      subst hc
                      simp only [Option.map_eq_some'] at h
                      obtain ⟨⟨r1, r2⟩, hr, heq⟩ := h
                      simp only [Prod.mk.injEq] at heq
                      obtain ⟨h1, h2⟩ := heq
                      subst h1 h2
                      obtain ⟨body, hb, hbm⟩ := ihM _ _ _ _ hr
                      refine ⟨_, ?_, IsMembers.cons w1 key w2 w3 t w4 body hws1 hk hws2 hws3 ht hws4 hbm⟩
                      rw [hw1, ek, hw2, e3, hw4, hb]; simp
                    · split at h
                      · rename_i hc1 hc
                        subst hc
                        simp only [Option.some.injEq, Prod.mk.injEq] at h
                        obtain ⟨h1, h2⟩ := h
                        subst h1 h2
                        refine ⟨_, ?_, IsMembers.one w1 key w2 w3 t w4 hws1 hk hws2 hws3 ht hws4⟩
                        rw [hw1, ek, hw2, e3, hw4]; simp
                      · simp at h
              · simp at h
        · simp at h

/-- An input the parser accepts is syntactically valid JSON. -/
theorem parse_sound (b : Bytes) (v : JSON) (h : parse b = some v) : ValidJSON b := by
  unfold parse at h
  split at h
  · simp at h
  · rename_i t rest hv
    split at h
    · rename_i hrest
      obtain ⟨w1, x, e1, hw1, hx, _⟩ := (parse_sound_aux _).1 _ _ _ _ hv
      obtain ⟨w2, hw2, hws2⟩ := skipSpace_spec rest
      rw [hrest, List.append_nil] at hw2
      exact ⟨w1, x, w2, by rw [e1, hw2], hw1, hx, hws2⟩
    · simp at h

/-- An input the parser reads as an object is a valid JSON text whose value
is an object. -/
theorem parse_sound_object (b : Bytes) (ms : List (Bytes × JSON))
    (h : parse b = some (JSON.object ms)) : ValidJSONObject b := by
  unfold parse at h
  split at h
  · simp at h
  · rename_i t rest hv
    split at h
    · rename_i hrest
      simp only [Option.some.injEq] at h
      obtain ⟨w1, x, e1, hw1, hx, hobj⟩ := (parse_sound_aux _).1 _ _ _ _ hv
      obtain ⟨body, hbody⟩ := hobj ms h
      obtain ⟨w2, hw2, hws2⟩ := skipSpace_spec rest
      rw [hrest, List.append_nil] at hw2
      subst hbody
      exact ⟨w1, body, w2, by rw [e1, hw2], hw1, hws2, hx⟩
    · simp at h

/-! ## Shape of a valid text -/

/-- A `value` starts with the first character of a literal, a quotation
mark, a bracket, a brace, a minus sign or a digit. -/
theorem IsValue_head {t : Bytes} (h : IsValue t) :
    ∃ c cs, t = c :: cs ∧
      (c = 110 ∨ c = 116 ∨ c = 102 ∨ c = 34 ∨ c = 91 ∨ c = 123 ∨ c = 45 ∨ (48 ≤ c ∧ c ≤ 57)) := by
  cases h with
  | null => exact ⟨_, _, rfl, by simp⟩
  | true => exact ⟨_, _, rfl, by simp⟩
  | false => exact ⟨_, _, rfl, by simp⟩
  | string s _ => exact ⟨_, _, rfl, by simp⟩
  | emptyArray w _ => exact ⟨_, _, rfl, by simp⟩
  | array es _ => exact ⟨_, _, rfl, by simp⟩
  | emptyObject w _ => exact ⟨_, _, rfl, by simp⟩
  | object ms _ => exact ⟨_, _, rfl, by simp⟩
  | number n hn =>
    have hint : ∀ i : Bytes, IsInt i → ∃ c cs, i = c :: cs ∧ 48 ≤ c ∧ c ≤ 57 := by
      intro i hi
      cases hi with
      | zero => exact ⟨48, [], rfl, by omega, by omega⟩
      | nonzero d ds h1 h2 _ => exact ⟨d, ds, rfl, by omega, h2⟩
    cases hn with
    | pos i f e hi _ _ =>
      obtain ⟨c, cs, hc, h1, h2⟩ := hint i hi
      subst hc
      exact ⟨c, cs ++ f ++ e, by simp, by omega⟩
    | neg i f e _ _ _ => exact ⟨_, _, rfl, by simp⟩

/-- A valid JSON text starts, after white space, like a value. -/
theorem ValidJSON_head {c : Nat} {cs : Bytes} (h : ValidJSON (c :: cs)) :
    c = 32 ∨ c = 9 ∨ c = 10 ∨ c = 13 ∨ c = 110 ∨ c = 116 ∨ c = 102 ∨ c = 34 ∨ c = 91 ∨
      c = 123 ∨ c = 45 ∨ (48 ≤ c ∧ c ≤ 57) := by
  obtain ⟨w1, v, w2, hb, hw1, hv, _⟩ := h
  cases w1 with
  | nil =>
    obtain ⟨d, ds, hd, hc⟩ := IsValue_head hv
    subst hd
    simp only [List.nil_append, List.cons_append, List.cons.injEq] at hb
    rw [hb.1]
    omega
  | cons x xs =>
    simp only [List.cons_append, List.cons.injEq] at hb
    have := hw1 x (List.mem_cons_self x xs)
    rw [hb.1]
    omega

/-! ## The parser accepts every text of the grammar of bounded length -/

theorem skipSpace_append (w x : Bytes) (hw : IsWs w)
    (hx : ∀ c cs, x = c :: cs → isSpace c = false) : skipSpace (w ++ x) = x := by
  induction w with
  | nil =>
    cases x with
    | nil => rfl
    | cons c cs => simp [skipSpace, hx c cs rfl]
  | cons a w ih =>
    have ha : isSpace a = true := (isSpace_iff a).mpr (hw a (List.mem_cons_self a w))
    have hw2 : IsWs w := fun c hc => hw c (List.mem_cons_of_mem a hc)
    simp [skipSpace, ha, ih hw2]

theorem takeDigits_append (ds rest : Bytes) (hd : IsDigits ds)
    (hr : ∀ c cs, rest = c :: cs → isDigit c = false) : takeDigits (ds ++ rest) = (ds, rest) := by
  induction ds with
  | nil =>
    cases rest with
    | nil => rfl
    | cons c cs => simp [takeDigits, hr c cs rfl]
  | cons a ds ih =>
    have ha : isDigit a = true := (isDigit_iff a).mpr (hd a (List.mem_cons_self a ds))
    have hd2 : IsDigits ds := fun c hc => hd c (List.mem_cons_of_mem a hc)
    simp [takeDigits, ha, ih hd2]

theorem scanString_complete (s rest : Bytes) (h : IsChars s) :
    scanString (s ++ 34 :: rest) = some (s, rest) := by
  induction h with
  | nil => rw [List.nil_append]; unfold scanString; simp
  | unescaped c cs h1 h2 h3 _ ih =>
    have h4 : ¬ c < 32 := by omega
    rw [List.cons_append]
    unfold scanString
    simp [h2, h3, h4, ih]
  | escape e cs he _ ih =>
    have h1 : isSimpleEscape e = true := by
      simp [isSimpleEscape]; omega
    rw [List.cons_append, List.cons_append]
    unfold scanString
    simp [h1, ih]
  | unicode h1 h2 h3 h4 cs p1 p2 p3 p4 _ ih =>
    have q1 := (isHex_iff h1).mpr p1
    have q2 := (isHex_iff h2).mpr p2
    have q3 := (isHex_iff h3).mpr p3
    have q4 := (isHex_iff h4).mpr p4
    simp only [List.cons_append]
    unfold scanString
    simp [isSimpleEscape, q1, q2, q3, q4, ih]

theorem expectLiteral_complete (p rest : Bytes) : expectLiteral p (p ++ rest) = some rest := by
  induction p with
  | nil => cases rest <;> rfl
  | cons c p ih => simp [expectLiteral, ih]

theorem scanInt_complete (i tail : Bytes) (hi : IsInt i)
    (ht : ∀ c cs, tail = c :: cs → isDigit c = false) : scanInt (i ++ tail) = some (i, tail) := by
  cases hi with
  | zero => simp [scanInt]
  | nonzero d ds h1 h2 hds =>
    have hd : isDigit d = true := (isDigit_iff d).mpr ⟨by omega, h2⟩
    have hne : d ≠ 48 := by omega
    simp [scanInt, hne, hd, takeDigits_append ds tail hds ht]

theorem scanFraction_complete (f tail : Bytes) (hf : IsFrac f)
    (ht : ∀ c cs, tail = c :: cs → isDigit c = false)
    (hdot : f = [] → ∀ c cs, tail = c :: cs → c ≠ 46) :
    scanFraction (f ++ tail) = some (f, tail) := by
  cases hf with
  | absent =>
    rw [List.nil_append]
    unfold scanFraction
    split
    · rename_i cs
      exact absurd rfl (hdot rfl 46 cs rfl)
    · rfl
  | present ds hne hds =>
    rw [List.cons_append]
    unfold scanFraction
    simp only [takeDigits_append ds tail hds ht]

theorem scanExponent_complete (e tail : Bytes) (he : IsExp e)
    (ht : ∀ c cs, tail = c :: cs → isDigit c = false)
    (hexp : e = [] → ∀ c cs, tail = c :: cs → c ≠ 101 ∧ c ≠ 69) :
    scanExponent (e ++ tail) = some (e, tail) := by
  cases he with
  | absent =>
    rw [List.nil_append]
    unfold scanExponent
    split
    · rfl
    · rename_i c cs
      have := hexp rfl c cs rfl
      simp [this.1, this.2]
  | unsigned x ds hx hne hds =>
    cases ds with
    | nil => exact absurd rfl hne
    | cons d ds =>
      have hd := hds d (List.mem_cons_self d ds)
      have hs : ¬ (d = 43 ∨ d = 45) := by omega
      have htd := takeDigits_append (d :: ds) tail hds ht
      simp only [List.cons_append] at htd ⊢
      unfold scanExponent
      simp only [hx, hs, if_true, if_false, htd]
  | signed x s ds hx hs hne hds =>
    cases ds with
    | nil => exact absurd rfl hne
    | cons d ds =>
      have htd := takeDigits_append (d :: ds) tail hds ht
      simp only [List.cons_append] at htd ⊢
      unfold scanExponent
      simp only [hx, hs, if_true, htd]

/-- A delimiter is neither a digit, a decimal point nor an exponent mark. -/
theorem Delimited_head {rest : Bytes} (hr : Delimited rest) (c : Nat) (cs : Bytes)
    (h : rest = c :: cs) : isDigit c = false ∧ c ≠ 46 ∧ c ≠ 101 ∧ c ≠ 69 ∧ isSpace c = false ∨
      isDigit c = false ∧ c ≠ 46 ∧ c ≠ 101 ∧ c ≠ 69 ∧ isSpace c = true := by
  have := hr c cs h
  have hd : isDigit c = false := by
    cases hdc : isDigit c with
    | false => rfl
    | true => have := (isDigit_iff c).mp hdc; omega
  cases hs : isSpace c with
  | false => exact Or.inl ⟨hd, by omega, by omega, by omega, rfl⟩
  | true => exact Or.inr ⟨hd, by omega, by omega, by omega, rfl⟩

theorem scanNumber_body (i f e rest : Bytes) (hi : IsInt i) (hf : IsFrac f) (he : IsExp e)
    (hr : Delimited rest) :
    scanInt (i ++ f ++ e ++ rest) = some (i, f ++ e ++ rest) ∧
    scanFraction (f ++ e ++ rest) = some (f, e ++ rest) ∧
    scanExponent (e ++ rest) = some (e, rest) := by
  have hrest : ∀ c cs, rest = c :: cs → isDigit c = false ∧ c ≠ 46 ∧ c ≠ 101 ∧ c ≠ 69 := by
    intro c cs h
    rcases Delimited_head hr c cs h with h1 | h1
    · exact ⟨h1.1, h1.2.1, h1.2.2.1, h1.2.2.2.1⟩
    · exact ⟨h1.1, h1.2.1, h1.2.2.1, h1.2.2.2.1⟩
  have hE : ∀ c cs, e ++ rest = c :: cs → isDigit c = false ∧ c ≠ 46 := by
    intro c cs h
    cases he with
    | absent => exact ⟨(hrest c cs h).1, (hrest c cs h).2.1⟩
    | unsigned x ds hx _ _ =>
      simp only [List.cons_append, List.cons.injEq] at h
      rw [← h.1]
      refine ⟨?_, by omega⟩
      cases hdc : isDigit x with
      | false => rfl
      | true => have := (isDigit_iff x).mp hdc; omega
    | signed x s ds hx _ _ _ =>
      simp only [List.cons_append, List.cons.injEq] at h
      rw [← h.1]
      refine ⟨?_, by omega⟩
      cases hdc : isDigit x with
      | false => rfl
      | true => have := (isDigit_iff x).mp hdc; omega
  have hF : ∀ c cs, f ++ e ++ rest = c :: cs → isDigit c = false := by
    intro c cs h
    cases hf with
    | absent => exact (hE c cs h).1
    | present ds _ _ =>
      simp only [List.cons_append, List.cons.injEq] at h
      rw [← h.1]
      rfl
  refine ⟨?_, ?_, ?_⟩
  · have := scanInt_complete i (f ++ e ++ rest) hi (fun c cs h => hF c cs h)
    simpa [List.append_assoc] using this
  · rw [List.append_assoc]
    exact scanFraction_complete f _ hf (fun c cs h => (hE c cs h).1)
      (fun _ c cs h => (hE c cs h).2)
  · exact scanExponent_complete e rest he (fun c cs h => (hrest c cs h).1)
      (fun _ c cs h => ⟨(hrest c cs h).2.2.1, (hrest c cs h).2.2.2⟩)

/-- A number of the grammar followed by a delimiter is scanned as written. -/
theorem scanNumber_complete (n rest : Bytes) (hn : IsNumber n) (hr : Delimited rest) :
    scanNumber (n ++ rest) = some (n, rest) := by
  cases hn with
  | pos i f e hi hf he =>
    obtain ⟨h1, h2, h3⟩ := scanNumber_body i f e rest hi hf he hr
    have hhead : ∀ cs, i ++ f ++ e ++ rest ≠ 45 :: cs := by
      intro cs h
      cases hi with
      | zero => simp at h
      | nonzero d ds hd1 hd2 _ =>
        simp only [List.cons_append, List.cons.injEq] at h
        omega
    unfold scanNumber
    have hsign : (match i ++ f ++ e ++ rest with
        | 45 :: cs => (([45] : Bytes), cs)
        | _ => ([], i ++ f ++ e ++ rest)) = ([], i ++ f ++ e ++ rest) := by
      split
      · rename_i cs heq
        exact absurd heq (hhead cs)
      · rfl
    simp only [hsign, h1, h2, h3, List.nil_append]
  | neg i f e hi hf he =>
    obtain ⟨h1, h2, h3⟩ := scanNumber_body i f e rest hi hf he hr
    unfold scanNumber
    simp only [List.cons_append, h1, h2, h3]
    simp

theorem skipSpace_ws_append (w x : Bytes) (hw : IsWs w) : skipSpace (w ++ x) = skipSpace x := by
  induction w with
  | nil => rfl
  | cons a w ih =>
    have ha : isSpace a = true := (isSpace_iff a).mpr (hw a (List.mem_cons_self a w))
    have hw2 : IsWs w := fun c hc => hw c (List.mem_cons_of_mem a hc)
    simp [skipSpace, ha, ih hw2]

theorem skipSpace_cons (c : Nat) (cs : Bytes) (hc : isSpace c = false) :
    skipSpace (c :: cs) = c :: cs := by
  simp [skipSpace, hc]

theorem skipSpace_ws (w : Bytes) (hw : IsWs w) : skipSpace w = [] := by
  have := skipSpace_ws_append w [] hw
  simpa [skipSpace] using this

theorem parseValue_ws_append (fuel depth : Nat) (w x : Bytes) (hw : IsWs w) :
    parseValue fuel depth (w ++ x) = parseValue fuel depth x := by
  cases fuel with
  | zero => simp [parseValue]
  | succ f =>
    unfold parseValue
    rw [skipSpace_ws_append w x hw]

theorem parseElements_ws_append (fuel depth : Nat) (w x : Bytes) (hw : IsWs w) :
    parseElements fuel depth (w ++ x) = parseElements fuel depth x := by
  cases fuel with
  | zero => simp [parseElements]
  | succ f =>
    unfold parseElements
    rw [parseValue_ws_append f depth w x hw]

theorem parseMembers_ws_append (fuel depth : Nat) (w x : Bytes) (hw : IsWs w) :
    parseMembers fuel depth (w ++ x) = parseMembers fuel depth x := by
  cases fuel with
  | zero => simp [parseMembers]
  | succ f =>
    unfold parseMembers
    rw [skipSpace_ws_append w x hw]

/-- A number starts with a minus sign or a digit. -/
theorem IsNumber_head {n : Bytes} (hn : IsNumber n) :
    ∃ c cs, n = c :: cs ∧ (c = 45 ∨ (48 ≤ c ∧ c ≤ 57)) := by
  cases hn with
  | pos i f e hi _ _ =>
    cases hi with
    | zero => exact ⟨48, f ++ e, by simp, by omega⟩
    | nonzero d ds h1 h2 _ => exact ⟨d, ds ++ f ++ e, by simp, by omega⟩
  | neg i f e _ _ _ => exact ⟨45, i ++ f ++ e, rfl, by omega⟩

/-- The first character of a value is not white space. -/
theorem IsValue_head_not_space {t : Bytes} (h : IsValue t) :
    ∃ c cs, t = c :: cs ∧ isSpace c = false ∧ c ≠ 93 ∧ c ≠ 125 := by
  obtain ⟨c, cs, ht, hc⟩ := IsValue_head h
  refine ⟨c, cs, ht, ?_, by omega, by omega⟩
  cases hs : isSpace c with
  | false => rfl
  | true => have := (isSpace_iff c).mp hs; omega

theorem openings_append (a b : Bytes) : openings (a ++ b) = openings a + openings b := by
  simp [openings, List.countP_append]

theorem openings_cons (c : Nat) (x : Bytes) :
    openings (c :: x) = openings x + (if c = 91 ∨ c = 123 then 1 else 0) := by
  simp [openings, List.countP_cons]

theorem openings_nil : openings [] = 0 := rfl

/-- The content of an array starts, after white space, with a value. -/
theorem IsElements_skip {es : Bytes} (h : IsElements es) (x : Bytes) :
    ∃ w c cs, es ++ x = w ++ c :: cs ∧ IsWs w ∧ isSpace c = false ∧ c ≠ 93 := by
  cases h with
  | one w1 v w2 h1 hv _ =>
    obtain ⟨c, cs, hc, hs, h93, _⟩ := IsValue_head_not_space hv
    subst hc
    exact ⟨w1, c, cs ++ w2 ++ x, by simp, h1, hs, h93⟩
  | cons w1 v w2 es' h1 hv _ _ =>
    obtain ⟨c, cs, hc, hs, h93, _⟩ := IsValue_head_not_space hv
    subst hc
    exact ⟨w1, c, cs ++ w2 ++ 44 :: es' ++ x, by simp, h1, hs, h93⟩

/-- The content of an object starts, after white space, with a key. -/
theorem IsMembers_skip {ms : Bytes} (h : IsMembers ms) (x : Bytes) :
    ∃ w cs, ms ++ x = w ++ 34 :: cs ∧ IsWs w := by
  cases h with
  | one w1 k w2 w3 v w4 h1 _ _ _ _ _ =>
    exact ⟨w1, k ++ 34 :: (w2 ++ 58 :: (w3 ++ (v ++ (w4 ++ x)))), by simp, h1⟩
  | cons w1 k w2 w3 v w4 ms' h1 _ _ _ _ _ _ =>
    exact ⟨w1, k ++ 34 :: (w2 ++ 58 :: (w3 ++ (v ++ (w4 ++ 44 :: (ms' ++ x))))), by simp, h1⟩

theorem parseValue_complete_step (n : Nat)
    (hE : ∀ es : Bytes, es.length < n → IsElements es → ∀ (rest : Bytes) (fuel depth : Nat),
      depth + openings es ≤ maxNestingDepth → es.length + 1 ≤ fuel →
      ∃ vs, parseElements fuel depth (es ++ 93 :: rest) = some (vs, rest))
    (hM : ∀ ms : Bytes, ms.length < n → IsMembers ms → ∀ (rest : Bytes) (fuel depth : Nat),
      depth + openings ms ≤ maxNestingDepth → ms.length + 1 ≤ fuel →
      ∃ r, parseMembers fuel depth (ms ++ 125 :: rest) = some (r, rest))
    (t : Bytes) (hlen : t.length < n + 1) (ht : IsValue t) (rest : Bytes) (fuel depth : Nat)
    (hrest : Delimited rest) (hdepth : depth + openings t ≤ maxNestingDepth)
    (hfuel : t.length ≤ fuel) :
    ∃ v, parseValue fuel depth (t ++ rest) = some (v, rest) ∧
      (∀ cs, t = 123 :: cs → ∃ ms, v = JSON.object ms) := by
  obtain ⟨c0, cs0, hc0, _⟩ := IsValue_head ht
  cases fuel with
  | zero => subst hc0; simp at hfuel
  | succ f =>
    clear hc0
    cases ht with
    | null =>
      refine ⟨JSON.null, ?_, by intro cs h; simp at h⟩
      unfold parseValue
      simp [skipSpace, isSpace, isDigit, ascii, expectLiteral]
    | true =>
      refine ⟨JSON.bool true, ?_, by intro cs h; simp at h⟩
      unfold parseValue
      simp [skipSpace, isSpace, isDigit, ascii, expectLiteral]
    | false =>
      refine ⟨JSON.bool false, ?_, by intro cs h; simp at h⟩
      unfold parseValue
      simp [skipSpace, isSpace, isDigit, ascii, expectLiteral]
    | number m hm =>
      obtain ⟨c, cs, hc, hcd⟩ := IsNumber_head hm
      have hnum := scanNumber_complete t rest hm hrest
      subst hc
      refine ⟨JSON.number (c :: cs), ?_, by intro cs h; simp at h; omega⟩
      have hs : isSpace c = false := by
        cases hs : isSpace c with
        | false => rfl
        | true => have := (isSpace_iff c).mp hs; omega
      have hd : c = 45 ∨ isDigit c = true := by
        rcases hcd with h | h
        · exact Or.inl h
        · exact Or.inr ((isDigit_iff c).mpr h)
      have h1 : c ≠ 123 := by omega
      have h2 : c ≠ 91 := by omega
      have h3 : c ≠ 34 := by omega
      rw [List.cons_append] at hnum ⊢
      unfold parseValue
      rw [skipSpace_cons c _ hs]
      simp only [h1, h2, h3, hd, if_true, if_false, hnum, Option.map_some']
    | string s hs =>
      refine ⟨JSON.string s, ?_, by intro cs h; simp at h⟩
      have := scanString_complete s rest hs
      unfold parseValue
      simp [skipSpace, isSpace, this]
    | emptyArray w hw =>
      refine ⟨JSON.array [], ?_, by intro cs h; simp at h⟩
      simp only [openings_cons, openings_append, openings_nil] at hdepth
      simp only [Nat.reduceEqDiff, or_false, or_true, true_or, false_or, if_true, if_false] at hdepth
      have hd : depth + 1 ≤ maxNestingDepth := by omega
      have hsk : skipSpace (w ++ 93 :: rest) = 93 :: rest :=
        skipSpace_append w _ hw (by intro c cs h; simp at h; rw [← h.1]; rfl)
      unfold parseValue
      simp [skipSpace, isSpace, hd, hsk]
    | array es hes =>
      simp only [List.length_cons, List.length_append, List.length_singleton] at hlen hfuel
      simp only [openings_cons, openings_append, openings_nil] at hdepth
      simp only [Nat.reduceEqDiff, or_false, or_true, true_or, false_or, if_true, if_false] at hdepth
      have hd : depth + 1 ≤ maxNestingDepth := by omega
      obtain ⟨vs, hvs⟩ := hE es (by omega) hes rest f (depth + 1) (by omega) (by omega)
      obtain ⟨w, c, cs, heq, hw, hc, h93⟩ := IsElements_skip hes (93 :: rest)
      have hsk : skipSpace (es ++ 93 :: rest) = c :: cs := by
        rw [heq, skipSpace_ws_append w _ hw, skipSpace_cons c cs hc]
      have hpe : parseElements f (depth + 1) (c :: cs) = some (vs, rest) := by
        rw [← hvs, heq, parseElements_ws_append f (depth + 1) w _ hw]
      refine ⟨JSON.array vs, ?_, by intro cs h; simp at h⟩
      unfold parseValue
      simp [skipSpace, isSpace, hd, hsk, h93, hpe]
    | emptyObject w hw =>
      refine ⟨JSON.object [], ?_, fun _ _ => ⟨[], rfl⟩⟩
      simp only [openings_cons, openings_append, openings_nil] at hdepth
      simp only [Nat.reduceEqDiff, or_false, or_true, true_or, false_or, if_true, if_false] at hdepth
      have hd : depth + 1 ≤ maxNestingDepth := by omega
      have hsk : skipSpace (w ++ 125 :: rest) = 125 :: rest :=
        skipSpace_append w _ hw (by intro c cs h; simp at h; rw [← h.1]; rfl)
      unfold parseValue
      simp [skipSpace, isSpace, hd, hsk]
    | object ms hms =>
      simp only [List.length_cons, List.length_append, List.length_singleton] at hlen hfuel
      simp only [openings_cons, openings_append, openings_nil] at hdepth
      simp only [Nat.reduceEqDiff, or_false, or_true, true_or, false_or, if_true, if_false] at hdepth
      have hd : depth + 1 ≤ maxNestingDepth := by omega
      obtain ⟨r, hr⟩ := hM ms (by omega) hms rest f (depth + 1) (by omega) (by omega)
      obtain ⟨w, cs, heq, hw⟩ := IsMembers_skip hms (125 :: rest)
      have hsk : skipSpace (ms ++ 125 :: rest) = 34 :: cs := by
        rw [heq, skipSpace_ws_append w _ hw, skipSpace_cons 34 cs rfl]
      have hpe : parseMembers f (depth + 1) (34 :: cs) = some (r, rest) := by
        rw [← hr, heq, parseMembers_ws_append f (depth + 1) w _ hw]
      refine ⟨JSON.object r, ?_, fun _ _ => ⟨r, rfl⟩⟩
      unfold parseValue
      simp [skipSpace, isSpace, hd, hsk, hpe]

theorem Delimited_ws_cons (w x : Bytes) (c : Nat) (hw : IsWs w)
    (hc : c = 44 ∨ c = 93 ∨ c = 125) : Delimited (w ++ c :: x) := by
  intro d ds h
  cases w with
  | nil =>
    simp only [List.nil_append, List.cons.injEq] at h
    omega
  | cons a w =>
    simp only [List.cons_append, List.cons.injEq] at h
    have := hw a (List.mem_cons_self a w)
    omega

theorem Delimited_ws (w : Bytes) (hw : IsWs w) : Delimited w := by
  intro d ds h
  subst h
  have := hw d (List.mem_cons_self d ds)
  omega

theorem parseElements_complete_step (n : Nat)
    (hV : ∀ t : Bytes, t.length < n + 1 → IsValue t → ∀ (rest : Bytes) (fuel depth : Nat),
      Delimited rest → depth + openings t ≤ maxNestingDepth → t.length ≤ fuel →
      ∃ v, parseValue fuel depth (t ++ rest) = some (v, rest) ∧
        (∀ cs, t = 123 :: cs → ∃ ms, v = JSON.object ms))
    (hE : ∀ es : Bytes, es.length < n → IsElements es → ∀ (rest : Bytes) (fuel depth : Nat),
      depth + openings es ≤ maxNestingDepth → es.length + 1 ≤ fuel →
      ∃ vs, parseElements fuel depth (es ++ 93 :: rest) = some (vs, rest))
    (es : Bytes) (hlen : es.length < n + 1) (hes : IsElements es) (rest : Bytes)
    (fuel depth : Nat) (hdepth : depth + openings es ≤ maxNestingDepth)
    (hfuel : es.length + 1 ≤ fuel) :
    ∃ vs, parseElements fuel depth (es ++ 93 :: rest) = some (vs, rest) := by
  cases fuel with
  | zero => omega
  | succ f =>
    cases hes with
    | one w1 v w2 h1 hv h2 =>
      simp only [List.length_append] at hlen hfuel
      simp only [openings_cons, openings_append, openings_nil] at hdepth
      obtain ⟨val, hval, _⟩ := hV v (by omega) hv (w2 ++ 93 :: rest) f depth
        (Delimited_ws_cons w2 rest 93 h2 (by omega)) (by omega) (by omega)
      have hsk : skipSpace (w2 ++ 93 :: rest) = 93 :: rest :=
        skipSpace_append w2 _ h2 (by intro c cs h; simp at h; rw [← h.1]; rfl)
      refine ⟨[val], ?_⟩
      unfold parseElements
      simp only [List.append_assoc]
      rw [parseValue_ws_append f depth w1 _ h1, hval]
      simp [hsk]
    | cons w1 v w2 es' h1 hv h2 hes' =>
      simp only [List.length_append, List.length_cons] at hlen hfuel
      simp only [openings_cons, openings_append, openings_nil] at hdepth
      simp only [Nat.reduceEqDiff, or_false, or_true, true_or, false_or, if_true, if_false] at hdepth
      obtain ⟨val, hval, _⟩ := hV v (by omega) hv (w2 ++ 44 :: (es' ++ 93 :: rest)) f depth
        (Delimited_ws_cons w2 _ 44 h2 (by omega)) (by omega) (by omega)
      obtain ⟨vs, hvs⟩ := hE es' (by omega) hes' rest f depth (by omega) (by omega)
      have hsk : skipSpace (w2 ++ 44 :: (es' ++ 93 :: rest)) = 44 :: (es' ++ 93 :: rest) :=
        skipSpace_append w2 _ h2 (by intro c cs h; simp at h; rw [← h.1]; rfl)
      refine ⟨val :: vs, ?_⟩
      unfold parseElements
      simp only [List.append_assoc, List.cons_append]
      rw [parseValue_ws_append f depth w1 _ h1, hval]
      simp [hsk, hvs]

theorem parseMembers_complete_step (n : Nat)
    (hV : ∀ t : Bytes, t.length < n + 1 → IsValue t → ∀ (rest : Bytes) (fuel depth : Nat),
      Delimited rest → depth + openings t ≤ maxNestingDepth → t.length ≤ fuel →
      ∃ v, parseValue fuel depth (t ++ rest) = some (v, rest) ∧
        (∀ cs, t = 123 :: cs → ∃ ms, v = JSON.object ms))
    (hM : ∀ ms : Bytes, ms.length < n → IsMembers ms → ∀ (rest : Bytes) (fuel depth : Nat),
      depth + openings ms ≤ maxNestingDepth → ms.length + 1 ≤ fuel →
      ∃ r, parseMembers fuel depth (ms ++ 125 :: rest) = some (r, rest))
    (ms : Bytes) (hlen : ms.length < n + 1) (hms : IsMembers ms) (rest : Bytes)
    (fuel depth : Nat) (hdepth : depth + openings ms ≤ maxNestingDepth)
    (hfuel : ms.length + 1 ≤ fuel) :
    ∃ r, parseMembers fuel depth (ms ++ 125 :: rest) = some (r, rest) := by
  cases fuel with
  | zero => omega
  | succ f =>
    cases hms with
    | one w1 k w2 w3 v w4 h1 hk h2 h3 hv h4 =>
      simp only [List.length_append, List.length_cons, List.length_singleton] at hlen hfuel
      simp only [openings_cons, openings_append, openings_nil] at hdepth
      simp only [Nat.reduceEqDiff, or_false, or_true, true_or, false_or, if_true, if_false] at hdepth
      obtain ⟨val, hval, _⟩ := hV v (by omega) hv (w4 ++ 125 :: rest) f depth
        (Delimited_ws_cons w4 rest 125 h4 (by omega)) (by omega) (by omega)
      have hsk1 : ∀ x : Bytes, skipSpace (w1 ++ 34 :: x) = 34 :: x := fun x =>
        skipSpace_append w1 _ h1 (by intro c cs h; simp at h; rw [← h.1]; rfl)
      have hsk2 : ∀ x : Bytes, skipSpace (w2 ++ 58 :: x) = 58 :: x := fun x =>
        skipSpace_append w2 _ h2 (by intro c cs h; simp at h; rw [← h.1]; rfl)
      have hsk4 : skipSpace (w4 ++ 125 :: rest) = 125 :: rest :=
        skipSpace_append w4 _ h4 (by intro c cs h; simp at h; rw [← h.1]; rfl)
      have hkey := fun x => scanString_complete k x hk
      refine ⟨[(k, val)], ?_⟩
      unfold parseMembers
      simp only [List.append_assoc, List.cons_append, List.nil_append]
      rw [hsk1]
      simp only [if_true, hkey, hsk2]
      rw [parseValue_ws_append f depth w3 _ h3, hval]
      simp [hsk4]
    | cons w1 k w2 w3 v w4 ms' h1 hk h2 h3 hv h4 hms' =>
      simp only [List.length_append, List.length_cons, List.length_singleton] at hlen hfuel
      simp only [openings_cons, openings_append, openings_nil] at hdepth
      simp only [Nat.reduceEqDiff, or_false, or_true, true_or, false_or, if_true, if_false] at hdepth
      obtain ⟨val, hval, _⟩ := hV v (by omega) hv (w4 ++ 44 :: (ms' ++ 125 :: rest)) f depth
        (Delimited_ws_cons w4 _ 44 h4 (by omega)) (by omega) (by omega)
      obtain ⟨r, hr⟩ := hM ms' (by omega) hms' rest f depth (by omega) (by omega)
      have hsk1 : ∀ x : Bytes, skipSpace (w1 ++ 34 :: x) = 34 :: x := fun x =>
        skipSpace_append w1 _ h1 (by intro c cs h; simp at h; rw [← h.1]; rfl)
      have hsk2 : ∀ x : Bytes, skipSpace (w2 ++ 58 :: x) = 58 :: x := fun x =>
        skipSpace_append w2 _ h2 (by intro c cs h; simp at h; rw [← h.1]; rfl)
      have hsk4 : skipSpace (w4 ++ 44 :: (ms' ++ 125 :: rest)) = 44 :: (ms' ++ 125 :: rest) :=
        skipSpace_append w4 _ h4 (by intro c cs h; simp at h; rw [← h.1]; rfl)
      have hkey := fun x => scanString_complete k x hk
      refine ⟨(k, val) :: r, ?_⟩
      unfold parseMembers
      simp only [List.append_assoc, List.cons_append, List.nil_append]
      rw [hsk1]
      simp only [if_true, hkey, hsk2]
      rw [parseValue_ws_append f depth w3 _ h3, hval]
      simp [hsk4, hr]

/-- Every value, array content and object content of the grammar is parsed
as written, given room for its nesting and fuel for its length. -/
theorem parse_complete_aux (n : Nat) :
    (∀ t : Bytes, t.length < n → IsValue t → ∀ (rest : Bytes) (fuel depth : Nat),
      Delimited rest → depth + openings t ≤ maxNestingDepth → t.length ≤ fuel →
      ∃ v, parseValue fuel depth (t ++ rest) = some (v, rest) ∧
        (∀ cs, t = 123 :: cs → ∃ ms, v = JSON.object ms)) ∧
    (∀ es : Bytes, es.length < n → IsElements es → ∀ (rest : Bytes) (fuel depth : Nat),
      depth + openings es ≤ maxNestingDepth → es.length + 1 ≤ fuel →
      ∃ vs, parseElements fuel depth (es ++ 93 :: rest) = some (vs, rest)) ∧
    (∀ ms : Bytes, ms.length < n → IsMembers ms → ∀ (rest : Bytes) (fuel depth : Nat),
      depth + openings ms ≤ maxNestingDepth → ms.length + 1 ≤ fuel →
      ∃ r, parseMembers fuel depth (ms ++ 125 :: rest) = some (r, rest)) := by
  induction n with
  | zero =>
    refine ⟨?_, ?_, ?_⟩ <;> intro t hlen <;> exact absurd hlen (Nat.not_lt_zero _)
  | succ n ih =>
    obtain ⟨_, ihE, ihM⟩ := ih
    have hV := parseValue_complete_step n ihE ihM
    exact ⟨hV, parseElements_complete_step n hV ihE, parseMembers_complete_step n hV ihM⟩

/-- A syntactically valid JSON text with at most `maxNestingDepth` opening
brackets and braces is accepted by the parser. -/
theorem parse_complete (b : Bytes) (hb : ValidJSON b) (hdepth : openings b ≤ maxNestingDepth) :
    ∃ v, parse b = some v := by
  obtain ⟨w1, t, w2, heq, h1, ht, h2⟩ := hb
  subst heq
  simp only [openings_append] at hdepth
  obtain ⟨v, hv, _⟩ := (parse_complete_aux (t.length + 1)).1 t (Nat.lt_succ_self _) ht w2
    (2 * (w1 ++ t ++ w2).length + 2) 0 (Delimited_ws w2 h2) (by omega)
    (by simp only [List.length_append]; omega)
  refine ⟨v, ?_⟩
  unfold parse
  rw [List.append_assoc, parseValue_ws_append _ 0 w1 _ h1]
  rw [List.append_assoc] at hv
  rw [hv]
  simp [skipSpace_ws w2 h2]

/-- A valid JSON text with at most `maxNestingDepth` opening brackets and
braces whose value is an object is parsed as an object. -/
theorem parse_complete_object (b : Bytes) (hb : ValidJSONObject b)
    (hdepth : openings b ≤ maxNestingDepth) : ∃ ms, parse b = some (JSON.object ms) := by
  obtain ⟨w1, body, w2, heq, h1, h2, ht⟩ := hb
  subst heq
  simp only [openings_append] at hdepth
  obtain ⟨v, hv, hobj⟩ := (parse_complete_aux ((123 :: (body ++ [125])).length + 1)).1 _
    (Nat.lt_succ_self _) ht w2
    (2 * (w1 ++ 123 :: (body ++ [125]) ++ w2).length + 2) 0 (Delimited_ws w2 h2)
    (by omega)
    (by simp only [List.length_append, List.length_cons]; omega)
  obtain ⟨ms, hms⟩ := hobj _ rfl
  subst hms
  refine ⟨ms, ?_⟩
  unfold parse
  rw [List.append_assoc, parseValue_ws_append _ 0 w1 _ h1]
  rw [List.append_assoc] at hv
  rw [hv]
  simp [skipSpace_ws w2 h2]

/-- An input the parser rejects, with at most `maxNestingDepth` opening
brackets and braces, is not valid JSON. -/
theorem not_valid_of_parse_none (b : Bytes) (h : parse b = none)
    (hdepth : openings b ≤ maxNestingDepth) : ¬ ValidJSON b := by
  intro hb
  obtain ⟨v, hv⟩ := parse_complete b hb hdepth
  rw [h] at hv
  cases hv

/-- Every valid JSON text whose value is an object, with at most
`maxNestingDepth` opening brackets and braces, is accepted by `UnmarshalJSON`
with a nil error and clears both flags, whatever its members hold. -/
theorem UnmarshalJSON_accepts_every_object (ko : KexecOptions) (b : Bytes)
    (hb : ValidJSONObject b) (hdepth : openings b ≤ maxNestingDepth) :
    UnmarshalJSON ko b = (⟨ko.DTB, false, false⟩, none) := by
  obtain ⟨ms, hms⟩ := parse_complete_object b hb hdepth
  exact UnmarshalJSON_of_ok ko b ((Unmarshal_kexecOptionsJSON_snd b _).mpr (Or.inl ⟨ms, hms⟩))

/-! ## Control: the model of `encoding/json` on exported fields -/

/-- Under exported field names the encoder emits all three fields. -/
theorem exportedVariant_Marshal :
    Marshal exportedVariant ⟨"", true, false⟩ =
      (ascii "\x7b\"Dtb\":\"\",\"MmapKernel\":true,\"MmapRamfs\":false\x7d", none) := by
  decide

/-- Under exported field names the decoder restores what the encoder wrote,
and matches keys without regard to letter case. -/
theorem exportedVariant_round_trip :
    Unmarshal exportedVariant (Marshal exportedVariant ⟨"", true, false⟩).1
      kexecOptionsJSON.zero = (⟨"", true, false⟩, none) ∧
    Unmarshal exportedVariant (ascii "\x7b\"mmapKernel\":true,\"mmapRamfs\":true\x7d")
      kexecOptionsJSON.zero = (⟨"", true, true⟩, none) := by
  decide

/-- Under exported field names a string in a flag field is rejected. -/
theorem exportedVariant_type_mismatch :
    (Unmarshal exportedVariant (ascii "\x7b\"mmapKernel\":\"yes\"\x7d")
      kexecOptionsJSON.zero).2 = some (JsonError.UnmarshalTypeError "string" "MmapKernel") := by
  decide

/-! ## The claims -/

/-- C1 (not met by the code): serializing options with `MmapKernel = true`
gives the empty object `{}`, and deserializing these bytes into zero-valued
options succeeds with `MmapKernel = false`, so the flag does not survive the
round trip; whatever the options, the round trip ends with both flags
false. -/
theorem round_trip_clears_flags :
    MarshalJSON ⟨none, true, false⟩ = (ascii "\x7b\x7d", none) ∧
    UnmarshalJSON KexecOptions.zero (MarshalJSON ⟨none, true, false⟩).1 =
      (⟨none, false, false⟩, none) ∧
    ∀ ko : KexecOptions, UnmarshalJSON KexecOptions.zero (MarshalJSON ko).1 =
      (⟨none, false, false⟩, none) :=
  ⟨by decide, by decide, fun ko => by rw [MarshalJSON_eq]; decide⟩

/-- C2 (not met by the code): for `MmapKernel = true`, `MmapRamfs = false`
and a device tree blob, `MarshalJSON` returns the two bytes `{}`, which
parse as an object without any field; neither flag is emitted. -/
theorem MarshalJSON_emits_no_field :
    MarshalJSON ⟨some ⟨[208, 13, 254, 237]⟩, true, false⟩ = ([123, 125], none) ∧
    parse [123, 125] = some (JSON.object []) :=
  ⟨by decide, rfl⟩

/-- C3 (not met by the code): `UnmarshalJSON` on the object with
`"map-kernel": true` and `"map-initramfs": true` succeeds and leaves both
flags false; so it does on the same object under the keys `mmapKernel` and
`mmapRamfs`. -/
theorem UnmarshalJSON_ignores_flag_fields :
    parse (ascii "\x7b\"map-kernel\":true,\"map-initramfs\":true\x7d") =
      some (JSON.object [(ascii "map-kernel", JSON.bool true),
        (ascii "map-initramfs", JSON.bool true)]) ∧
    UnmarshalJSON KexecOptions.zero (ascii "\x7b\"map-kernel\":true,\"map-initramfs\":true\x7d") =
      (⟨none, false, false⟩, none) ∧
    UnmarshalJSON KexecOptions.zero (ascii "\x7b\"mmapKernel\":true,\"mmapRamfs\":true\x7d") =
      (⟨none, false, false⟩, none) :=
  ⟨rfl, by decide, by decide⟩

/-- C4 (not met by the code): the object whose `map-kernel` field holds the
string `"yes"` is well-formed JSON, and `UnmarshalJSON` accepts it with a nil
error; so it does when the key is `mmapKernel`. -/
theorem UnmarshalJSON_accepts_string_flag :
    parse (ascii "\x7b\"map-kernel\":\"yes\"\x7d") =
      some (JSON.object [(ascii "map-kernel", JSON.string (ascii "yes"))]) ∧
    (UnmarshalJSON KexecOptions.zero (ascii "\x7b\"map-kernel\":\"yes\"\x7d")).2 = none ∧
    (UnmarshalJSON KexecOptions.zero (ascii "\x7b\"mmapKernel\":\"yes\"\x7d")).2 = none :=
  ⟨rfl, by decide, by decide⟩

/-- C5: on an input that is not syntactically valid JSON `UnmarshalJSON`
returns an error, and whenever `UnmarshalJSON` returns an error the receiver
(`DTB`, `MmapKernel`, `MmapRamfs`) is what it was before the call. -/
theorem UnmarshalJSON_all_or_nothing (ko : KexecOptions) (b : Bytes) :
    (¬ ValidJSON b → (UnmarshalJSON ko b).2 ≠ none) ∧
    ((UnmarshalJSON ko b).2 ≠ none → (UnmarshalJSON ko b).1 = ko) := by
  constructor
  · intro hb herr
    rw [UnmarshalJSON_snd, Unmarshal_kexecOptionsJSON_snd] at herr
    rcases herr with ⟨ms, h⟩ | h
    · exact hb (parse_sound b _ h)
    · exact hb (parse_sound b _ h)
  · intro herr
    cases h : (Unmarshal kexecOptionsJSON.fields b kexecOptionsJSON.zero).2 with
    | none => rw [UnmarshalJSON_snd, h] at herr; exact absurd rfl herr
    | some err => rw [UnmarshalJSON_of_error ko b err h]

/-- Witness of C5: the truncated object `{"map-kernel":tru` is not valid
JSON; decoding it into options holding a device tree blob and both flags
fails and changes nothing. -/
theorem UnmarshalJSON_all_or_nothing_witness :
    ¬ ValidJSON (ascii "\x7b\"map-kernel\":tru") ∧
    (UnmarshalJSON ⟨some ⟨[208, 13, 254, 237]⟩, true, true⟩
      (ascii "\x7b\"map-kernel\":tru")).2 ≠ none ∧
    (UnmarshalJSON ⟨some ⟨[208, 13, 254, 237]⟩, true, true⟩
      (ascii "\x7b\"map-kernel\":tru")).1 = ⟨some ⟨[208, 13, 254, 237]⟩, true, true⟩ :=
  have hbad : ¬ ValidJSON (ascii "\x7b\"map-kernel\":tru") :=
    not_valid_of_parse_none _ rfl (by decide)
  ⟨hbad,
    (UnmarshalJSON_all_or_nothing _ _).1 hbad,
    (UnmarshalJSON_all_or_nothing _ _).2 ((UnmarshalJSON_all_or_nothing _ _).1 hbad)⟩

/-- C6: for options with a non-nil `DTB`, `MarshalJSON` succeeds, and
`UnmarshalJSON` of the bytes into zero-valued options succeeds and yields
options whose `DTB` is nil. -/
theorem round_trip_drops_DTB (ko : KexecOptions) : ko.DTB ≠ none →
    (MarshalJSON ko).2 = none ∧
    (UnmarshalJSON KexecOptions.zero (MarshalJSON ko).1).2 = none ∧
    (UnmarshalJSON KexecOptions.zero (MarshalJSON ko).1).1.DTB = none := by
  intro _
  rw [MarshalJSON_eq]
  exact ⟨rfl, by decide, by decide⟩

/-- Witness of C6: options holding a four-byte blob and both flags. -/
theorem round_trip_drops_DTB_witness :
    (⟨some ⟨[208, 13, 254, 237]⟩, true, true⟩ : KexecOptions).DTB ≠ none ∧
    (MarshalJSON ⟨some ⟨[208, 13, 254, 237]⟩, true, true⟩).2 = none ∧
    (UnmarshalJSON KexecOptions.zero
      (MarshalJSON ⟨some ⟨[208, 13, 254, 237]⟩, true, true⟩).1).2 = none ∧
    (UnmarshalJSON KexecOptions.zero
      (MarshalJSON ⟨some ⟨[208, 13, 254, 237]⟩, true, true⟩).1).1.DTB = none :=
  ⟨by decide, round_trip_drops_DTB ⟨some ⟨[208, 13, 254, 237]⟩, true, true⟩ (by decide)⟩

/-- C7: two options that agree on `MmapKernel` and `MmapRamfs` serialize to
the same bytes and error, whatever their `DTB`s; the bytes are a JSON object
none of whose keys is `dtb`, in any letter case. -/
theorem MarshalJSON_independent_of_DTB (ko1 ko2 : KexecOptions) :
    ko1.MmapKernel = ko2.MmapKernel → ko1.MmapRamfs = ko2.MmapRamfs →
    MarshalJSON ko1 = MarshalJSON ko2 ∧
    ∃ ms, parse (MarshalJSON ko1).1 = some (JSON.object ms) ∧
      ∀ m ∈ ms, equalFold "dtb" (unquote m.1) = false := by
  intro _ _
  rw [MarshalJSON_eq, MarshalJSON_eq]
  exact ⟨rfl, [], rfl, by intro m hm; cases hm⟩

/-- Witness of C7: the same flags with a blob and without one. -/
theorem MarshalJSON_independent_of_DTB_witness :
    MarshalJSON ⟨some ⟨[208, 13, 254, 237]⟩, true, false⟩ = MarshalJSON ⟨none, true, false⟩ ∧
    ∃ ms, parse (MarshalJSON ⟨some ⟨[208, 13, 254, 237]⟩, true, false⟩).1 = some (JSON.object ms) ∧
      ∀ m ∈ ms, equalFold "dtb" (unquote m.1) = false :=
  MarshalJSON_independent_of_DTB ⟨some ⟨[208, 13, 254, 237]⟩, true, false⟩ ⟨none, true, false⟩
    rfl rfl

/-- C8: for all options `MarshalJSON` returns a nil error, and the bytes are a
syntactically valid JSON text whose value is an object, which the parser
reads as an object. -/
theorem MarshalJSON_never_fails (ko : KexecOptions) :
    (MarshalJSON ko).2 = none ∧ ValidJSONObject (MarshalJSON ko).1 ∧
    ∃ ms, parse (MarshalJSON ko).1 = some (JSON.object ms) := by
  rw [MarshalJSON_eq]
  exact ⟨rfl, parse_sound_object _ [] rfl, [], rfl⟩

/-- C9: `UnmarshalJSON` leaves the receiver's `DTB` as it was, for every
receiver and input, whether it succeeds or fails. -/
theorem UnmarshalJSON_keeps_DTB (ko : KexecOptions) (b : Bytes) :
    (UnmarshalJSON ko b).1.DTB = ko.DTB := by
  cases h : (Unmarshal kexecOptionsJSON.fields b kexecOptionsJSON.zero).2 with
  | none => rw [UnmarshalJSON_of_ok ko b h]
  | some err => rw [UnmarshalJSON_of_error ko b err h]

/-- C10: when `UnmarshalJSON` succeeds on an input for one receiver, it
succeeds for any other receiver and both end with the same `MmapKernel` and
`MmapRamfs`; and decoding `{}` into a receiver with both flags set succeeds
and leaves both flags false. -/
theorem UnmarshalJSON_flags_from_input (b : Bytes) (ko1 ko2 : KexecOptions)
    (h : (UnmarshalJSON ko1 b).2 = none) :
    (UnmarshalJSON ko2 b).2 = none ∧
    (UnmarshalJSON ko1 b).1.MmapKernel = (UnmarshalJSON ko2 b).1.MmapKernel ∧
    (UnmarshalJSON ko1 b).1.MmapRamfs = (UnmarshalJSON ko2 b).1.MmapRamfs ∧
    ∀ dtb, UnmarshalJSON ⟨dtb, true, true⟩ [123, 125] = (⟨dtb, false, false⟩, none) := by
  rw [UnmarshalJSON_snd] at h
  rw [UnmarshalJSON_of_ok ko1 b h, UnmarshalJSON_of_ok ko2 b h]
  exact ⟨rfl, rfl, rfl, fun dtb => UnmarshalJSON_of_ok _ _ (by decide)⟩

/-- Witness of C10: the input `{"mmapKernel":true}` and two receivers with
different flags. -/
theorem UnmarshalJSON_flags_from_input_witness :
    (UnmarshalJSON ⟨none, true, false⟩ (ascii "\x7b\"mmapKernel\":true\x7d")).2 = none ∧
    (UnmarshalJSON ⟨none, false, true⟩ (ascii "\x7b\"mmapKernel\":true\x7d")).2 = none ∧
    (UnmarshalJSON ⟨none, true, false⟩ (ascii "\x7b\"mmapKernel\":true\x7d")).1.MmapKernel =
      (UnmarshalJSON ⟨none, false, true⟩ (ascii "\x7b\"mmapKernel\":true\x7d")).1.MmapKernel ∧
    (UnmarshalJSON ⟨none, true, false⟩ (ascii "\x7b\"mmapKernel\":true\x7d")).1.MmapRamfs =
      (UnmarshalJSON ⟨none, false, true⟩ (ascii "\x7b\"mmapKernel\":true\x7d")).1.MmapRamfs ∧
    ∀ dtb, UnmarshalJSON ⟨dtb, true, true⟩ [123, 125] = (⟨dtb, false, false⟩, none) :=
  ⟨by decide,
    UnmarshalJSON_flags_from_input (ascii "\x7b\"mmapKernel\":true\x7d")
      ⟨none, true, false⟩ ⟨none, false, true⟩ (by decide)⟩

end Linux
